import Mathlib

set_option maxHeartbeats 1000000

/-!
Verification development for the aiorq distributed job queue.

The protocol layer (`aiorq.protocol`, `aiorq.keys`, `aiorq.specs`) is not
part of the checked-in sources; its operations are modelled here from the
specification (spec.md §3, §4.A, §4.C, §4.D) and checked against the unit
tests' expectations.  The connection-resolution module `aiorq/connections.py`
is present in the sources and is embedded directly.

The Redis-compatible store is represented as a record of total maps from
key names to the relevant value shapes: queue lists, job hashes, sorted-set
registries (membership only; scores are irrelevant to the claims), the
dependents sets, and the worker state.
-/

namespace Aiorq

/-- Field values stored in a job or worker hash.  The store holds byte
strings; clients may also write integers or the Python None marker, which
the protocol's result_ttl policy distinguishes. -/
inductive Val where
  | str : String → Val
  | int : Int → Val
  | noneMarker : Val
  deriving DecidableEq

/-- A hash's fields: a partial map from field name to value. -/
def Fields : Type := String → Option Val

/-- A stored hash together with its key-level TTL.
`ttl = none` models a persisted key (Redis TTL -1). -/
structure JobHash where
  fields : Fields
  ttl : Option Nat

/-- Error taxonomy (spec.md §7 plus the Python-level errors of
`connections.py`). -/
inductive Err where
  | valueError
  | invalidOperation
  | noRedisConnection
  | assertionError
  deriving DecidableEq

-- Job status byte strings, as in `aiorq.specs.JobStatus`.
namespace JobStatus

def QUEUED : Val := .str "queued"

def STARTED : Val := .str "started"

def FINISHED : Val := .str "finished"

def FAILED : Val := .str "failed"

def DEFERRED : Val := .str "deferred"

end JobStatus

-- Worker status byte strings, as in `aiorq.specs.WorkerStatus`.
namespace WorkerStatus

def STARTED : Val := .str "started"

end WorkerStatus

/-- The shared store state.  Key naming (spec.md §4.A) is folded into the
record: `lists q` is `rq:queue:<q>` (so `lists "failed"` is the failure
queue), `jobs id` is `rq:job:<id>`, `wip`/`fin`/`defr` are the
started/finished/deferred registries, `deps id` is
`rq:job:<id>:dependents`, and the worker keys are kept per worker name. -/
structure Store where
  queues : List String
  lists : String → List String
  jobs : String → Option JobHash
  wip : String → List String
  fin : String → List String
  defr : String → List String
  deps : String → List String
  workers : List String
  whash : String → Option JobHash

/-- The empty store every scenario starts from (a flushed database). -/
def emptyStore : Store where
  queues := []
  lists := fun _ => []
  jobs := fun _ => none
  wip := fun _ => []
  fin := fun _ => []
  defr := fun _ => []
  deps := fun _ => []
  workers := []
  whash := fun _ => none

/-- Point update of a total map. -/
def updF (f : String → α) (k : String) (v : α) : String → α :=
  fun k' => if k' = k then v else f k'

/-- Set one field of a hash (HSET on the field level). -/
def setField (f : Fields) (k : String) (v : Val) : Fields :=
  fun k' => if k' = k then some v else f k'

/-- Delete one field of a hash (HDEL). -/
def delField (f : Fields) (k : String) : Fields :=
  fun k' => if k' = k then none else f k'

/-- HMSET semantics: the written fields override, the others survive. -/
def mergeInto (old new : Fields) : Fields :=
  fun k => match new k with
    | some v => some v
    | none => old k

/-- A freshly created hash: no fields, no key-level TTL. -/
def emptyJob : JobHash where
  fields := fun _ => none
  ttl := none

/-- Add a member to a set-like collection (SADD / ZADD membership). -/
def addElem (l : List String) (x : String) : List String :=
  if x ∈ l then l else l ++ [x]

/-- Remove every occurrence of a member (SREM / ZREM / LREM with count 0). -/
def removeAll (l : List String) (x : String) : List String :=
  l.filter (fun y => y ≠ x)

/-- HSET on a job key: creates the hash when the key is missing. -/
def hsetJ (jobs : String → Option JobHash) (id field : String) (v : Val) :
    String → Option JobHash :=
  let h := (jobs id).getD emptyJob
  updF jobs id (some { h with fields := setField h.fields field v })

/-- Read a field expected to hold a byte string. -/
def fieldStr (f : Fields) (k : String) : Option String :=
  match f k with
  | some (Val.str s) => some s
  | _ => none

/-- Modelled from the spec: `job_status` of §4.G — `HGET rq:job:<id> status`
(the protocol module is not among the checked-in sources). -/
def job_status (s : Store) (id : String) : Option Val :=
  match s.jobs id with
  | some h => h.fields "status"
  | none => none

/-- The job's `origin` hash field, when present as a byte string. -/
def originOf (s : Store) (id : String) : Option String :=
  match s.jobs id with
  | some h => fieldStr h.fields "origin"
  | none => none

/-- The job key's TTL view: `none` when the key is missing, `some none`
when the key is persisted (Redis TTL -1), `some (some n)` otherwise. -/
def jobTTL (s : Store) (id : String) : Option (Option Nat) :=
  (s.jobs id).map (·.ttl)

/-- One field of a job's hash (`HGET rq:job:<id> <k>`). -/
def jobField (s : Store) (id k : String) : Option Val :=
  match s.jobs id with
  | some h => h.fields k
  | none => none

/-- The dependency id named by a spec, when its field holds a byte string. -/
def depIdOf (spec : Fields) : Option String :=
  match spec "dependency_id" with
  | some (Val.str d) => some d
  | _ => none

/-- The defer branch of Enqueue (spec.md §4.C step 2, first case):
`status=deferred` merged over the spec, the id added to the deferred
registry and to the dependency's dependents set, and nothing pushed on the
queue list.  The branch also records `origin`, which §4.C's Finish step 4
and scenario S3 read back when releasing dependents. -/
def enqDefer (s0 : Store) (queue id dep : String) (spec : Fields) : Store :=
  let h := (s0.jobs id).getD emptyJob
  let f := setField (setField (mergeInto h.fields spec)
    "status" JobStatus.DEFERRED) "origin" (.str queue)
  { s0 with
    jobs := updF s0.jobs id (some { h with fields := f })
    defr := updF s0.defr queue (addElem (s0.defr queue) id)
    deps := updF s0.deps dep (addElem (s0.deps dep) id) }

/-- The activate branch of Enqueue: `status=queued`, `enqueued_at=now`,
`origin=queue` merged over the spec, and the id pushed onto the list. -/
def enqActivate (s0 : Store) (queue id : String) (spec : Fields)
    (at_front : Bool) (now : String) : Store :=
  let h := (s0.jobs id).getD emptyJob
  let f := setField (setField (setField (mergeInto h.fields spec)
    "status" JobStatus.QUEUED) "enqueued_at" (.str now)) "origin" (.str queue)
  { s0 with
    jobs := updF s0.jobs id (some { h with fields := f })
    lists := updF s0.lists queue
      (if at_front then id :: s0.lists queue else s0.lists queue ++ [id]) }

/-- Modelled from the spec: `Enqueue(queue, id, spec, at_front)` of §4.C
(the protocol module is not among the checked-in sources).  Registers the
queue, then defers the job when `spec.dependency_id` is set and that
dependency's status is not finished, and activates it otherwise.  Returns
the new store together with `(status, enqueued_at_or_nil)`. -/
def enqueue_job (s : Store) (queue id : String) (spec : Fields)
    (at_front : Bool) (now : String) : Store × Val × Option String :=
  let s0 : Store := { s with queues := addElem s.queues queue }
  match depIdOf spec with
  | some dep =>
    if job_status s0 dep ≠ some JobStatus.FINISHED then
      (enqDefer s0 queue id dep spec, JobStatus.DEFERRED, none)
    else
      (enqActivate s0 queue id spec at_front now, JobStatus.QUEUED, some now)
  | none => (enqActivate s0 queue id spec at_front now, JobStatus.QUEUED, some now)

/-- Pop ids off a queue list until one has a job hash; orphan ids (no
hash) are silently discarded (spec.md §4.C Dequeue step 2). -/
def dequeueLoop (jobs : String → Option JobHash) :
    List String → Option (String × Fields) × List String
  | [] => (none, [])
  | id :: rest =>
    match jobs id with
    | some h => (some (id, h.fields), rest)
    | none => dequeueLoop jobs rest

/-- Modelled from the spec: the non-blocking `Dequeue` of §4.C on a single
queue (the protocol module is not among the checked-in sources).  Returns
the first popped id whose hash exists, with `id` and `origin` injected
into the returned mapping, and the store with the popped prefix removed. -/
def dequeue_job (s : Store) (queue : String) : Option Fields × Store :=
  match dequeueLoop s.jobs (s.lists queue) with
  | (some (id, f), rest) =>
    (some (setField (setField f "id" (.str id)) "origin" (.str queue)),
      { s with lists := updF s.lists queue rest })
  | (none, rest) => (none, { s with lists := updF s.lists queue rest })

/-- Modelled from the spec: `Cancel(queue, id)` of §4.C — `LREM` only. -/
def cancel_job (s : Store) (queue id : String) : Store :=
  { s with lists := updF s.lists queue (removeAll (s.lists queue) id) }

/-- Modelled from the spec: `EmptyQueue(queue)` of §4.C — delete the list
and every member's job hash (dependents are not cascaded). -/
def empty_queue (s : Store) (queue : String) : Store :=
  let ids := s.lists queue
  { s with
    lists := updF s.lists queue []
    jobs := fun j => if j ∈ ids then none else s.jobs j }

/-- Modelled from the spec: `Start(queue, id)` of §4.C — set
`status=started` and `started_at`, persist the hash, add to the started
registry (the protocol module is not among the checked-in sources). -/
def start_job (s : Store) (queue id now : String) : Store :=
  let h := (s.jobs id).getD emptyJob
  let f := setField (setField h.fields "status" JobStatus.STARTED)
    "started_at" (.str now)
  { s with
    jobs := updF s.jobs id (some { fields := f, ttl := none })
    wip := updF s.wip queue (addElem (s.wip queue) id) }

/-- Apply the result_ttl policy of §4.C Finish step 3 to the job key:
absent → EXPIRE 500; integer 0 → DEL; other integer N → EXPIRE N;
None marker → PERSIST.  A stray byte-string value cannot arise from the
modelled flows and is treated like an absent field. -/
def applyResultTtl (jobs : String → Option JobHash) (id : String) :
    Option Val → String → Option JobHash
  | none => updF jobs id ((jobs id).map fun h => { h with ttl := some 500 })
  | some (Val.int n) =>
    if n = 0 then updF jobs id none
    else updF jobs id ((jobs id).map fun h => { h with ttl := some n.toNat })
  | some Val.noneMarker => updF jobs id ((jobs id).map fun h => { h with ttl := none })
  | some (Val.str _) => updF jobs id ((jobs id).map fun h => { h with ttl := some 500 })

/-- Release one dependent (spec.md §4.C Finish step 4): if it is still
deferred, move it from the deferred registry of its origin onto the origin
queue list with `status=queued` and a fresh `enqueued_at`. -/
def releaseDependent (now : String) (s : Store) (d : String) : Store :=
  match s.jobs d with
  | some h =>
    if h.fields "status" = some JobStatus.DEFERRED then
      match h.fields "origin" with
      | some (Val.str q) =>
        { s with
          defr := updF s.defr q (removeAll (s.defr q) d)
          jobs := updF s.jobs d (some { h with
            fields := setField (setField h.fields "status" JobStatus.QUEUED)
              "enqueued_at" (.str now) })
          lists := updF s.lists q (s.lists q ++ [d]) }
      | _ => s
    else s
  | none => s

/-- Step 1 of Finish (spec.md §4.C): `status=finished`, `ended_at=now`. -/
def finishStamp (s : Store) (id now : String) : Store :=
  { s with
    jobs := hsetJ (hsetJ s.jobs id "status" JobStatus.FINISHED) id "ended_at" (.str now) }

/-- Step 2 of Finish: move the id from the started registry of the spec's
origin queue to its finished registry. -/
def finishRegistries (s : Store) (id q : String) : Store :=
  { s with
    wip := updF s.wip q (removeAll (s.wip q) id)
    fin := updF s.fin q (addElem (s.fin q) id) }

/-- Step 3 of Finish: the result_ttl policy applied to the job key. -/
def finishTtl (s : Store) (id : String) (rttl : Option Val) : Store :=
  { s with jobs := applyResultTtl s.jobs id rttl }

/-- Step 4 of Finish: release every dependent, then drop the dependents
set. -/
def finishRelease (s : Store) (id now : String) : Store :=
  let s4 := (s.deps id).foldl (releaseDependent now) s
  { s4 with deps := updF s4.deps id [] }

/-- Modelled from the spec: `Finish(id, spec)` of §4.C (the protocol
module is not among the checked-in sources).  The queue is read from the
passed spec's `origin`; sets `status=finished` and `ended_at`, moves the
id from the started to the finished registry, applies the result_ttl
policy, then releases the dependents and drops the dependents set. -/
def finish_job (s : Store) (id : String) (spec : Fields) (now : String) : Store :=
  finishRelease (finishTtl (finishRegistries (finishStamp s id now) id
    ((fieldStr spec "origin").getD "")) id (spec "result_ttl")) id now

/-- Modelled from the spec: `Fail(queue, id, exc_info)` of §4.C — set
failure fields, drop from the started registry, quarantine on the failure
queue list, register the `failed` queue; the origin list is not touched. -/
def fail_job (s : Store) (queue id exc now : String) : Store :=
  { s with
    jobs := hsetJ (hsetJ (hsetJ s.jobs id "status" JobStatus.FAILED)
      id "ended_at" (.str now)) id "exc_info" (.str exc)
    wip := updF s.wip queue (removeAll (s.wip queue) id)
    lists := updF s.lists "failed" (s.lists "failed" ++ [id])
    queues := addElem s.queues "failed" }

/-- Modelled from the spec: `Requeue(id)` of §4.C (the protocol module is
not among the checked-in sources).  A stale failure entry is dropped; a
non-failed job is an InvalidOperation; otherwise the exception info is
removed, the status reset to queued, and the id moved from the failure
list back onto its origin list. -/
def requeue_job (s : Store) (id : String) : Except Err Store :=
  match s.jobs id with
  | none =>
    .ok { s with lists := updF s.lists "failed" (removeAll (s.lists "failed") id) }
  | some h =>
    if h.fields "status" ≠ some JobStatus.FAILED then .error .invalidOperation
    else
      let o := (fieldStr h.fields "origin").getD ""
      let l1 := updF s.lists "failed" (removeAll (s.lists "failed") id)
      .ok { s with
        jobs := updF s.jobs id (some { h with
          fields := setField (delField h.fields "exc_info") "status" JobStatus.QUEUED })
        lists := updF l1 o (l1 o ++ [id]) }

/-- The fully qualified worker key `rq:worker:<name>` (spec.md §4.A). -/
def workerKey (w : String) : String := "rq:worker:" ++ w

/-- Modelled from the spec: `Birth(worker, queue_names, ttl)` of §4.D —
fails with ValueError when the worker hash already exists (double-birth
guard); otherwise writes the fresh hash with `birth`, the comma-joined
queue names and `status=started`, sets the TTL, and adds the worker key
to the workers set. -/
def worker_birth (s : Store) (w : String) (queueNames : List String)
    (ttl : Nat) (now : String) : Except Err Store :=
  if (s.whash w).isSome then .error .valueError
  else
    let f : Fields := fun k =>
      if k = "birth" then some (.str now)
      else if k = "queues" then some (.str (String.intercalate "," queueNames))
      else if k = "status" then some WorkerStatus.STARTED
      else none
    .ok { s with
      whash := updF s.whash w (some { fields := f, ttl := some ttl })
      workers := addElem s.workers (workerKey w) }

/-- The state reached by a Birth attempt: unchanged when Birth failed. -/
def worker_birth_run (s : Store) (w : String) (queueNames : List String)
    (ttl : Nat) (now : String) : Store :=
  match worker_birth s w queueNames ttl now with
  | .ok s' => s'
  | .error _ => s

/-!
The connection-resolution module, embedded from `src/aiorq/connections.py`.
The `LocalStack` of connections is modelled as a Lean list whose head is
the top of the stack (the Python list appends at its end and pops from its
end).  `create_redis` is an external collaborator; each function that may
call it takes the connection it would create as an explicit argument.
-/

/-- `push_connection(redis)`: pushes the given connection on the stack. -/
def push_connection (st : List α) (redis : α) : List α :=
  redis :: st

/-- `pop_connection()`: pops the topmost connection from the stack.
`LocalStack.pop` returns None on an empty stack instead of raising. -/
def pop_connection (st : List α) : Option α × List α :=
  match st with
  | [] => (none, [])
  | c :: rest => (some c, rest)

/-- `get_current_connection()`: the topmost connection on the stack, or
None when the stack is empty (`LocalStack.top`). -/
def get_current_connection (st : List α) : Option α :=
  st.head?

/-- `resolve_connection(connection=None)`: the given connection when not
None, otherwise the current one; raises `NoRedisConnectionException` when
neither resolves. -/
def resolve_connection (connection : Option α) (st : List α) : Except Err α :=
  match connection with
  | some c => .ok c
  | none =>
    match get_current_connection st with
    | some c => .ok c
    | none => .error .noRedisConnection

/-- Entering `_ConnectionContextManager(connection)`: the part before the
yield pushes the connection. -/
def connectionEnter (connection : α) (st : List α) : List α :=
  push_connection st connection

/-- Exiting `_ConnectionContextManager(connection)`: the part after the
yield pops the stack and asserts that the popped connection is the one
pushed at entry, raising AssertionError otherwise. -/
def connectionExit [DecidableEq α] (connection : α) (st : List α) :
    Except Err (List α) :=
  let p := pop_connection st
  if p.1 = some connection then .ok p.2 else .error .assertionError

/-- `use_connection(redis=None)`: asserts that at most one connection is
stacked (guarding against mixing with `Connection` contexts), clears the
stack, and pushes the given connection — or the one `create_redis` would
produce, passed here as `fresh`. -/
def use_connection (redis : Option α) (fresh : α) (st : List α) :
    Except Err (List α) :=
  if st.length ≤ 1 then .ok [redis.getD fresh] else .error .assertionError

/-!
Traces of protocol operations, for the exclusive-location invariant.
-/

/-- One protocol operation of spec.md §4.C, with the timestamps the
operation would read from the clock passed explicitly. -/
inductive Op where
  | enqueue (queue id : String) (spec : Fields) (at_front : Bool) (now : String)
  | dequeue (queue : String)
  | cancel (queue id : String)
  | emptyQ (queue : String)
  | start (queue id now : String)
  | finish (id : String) (spec : Fields) (now : String)
  | fail (queue id exc now : String)
  | requeue (id : String)

/-- Execute one operation; an operation that fails (Requeue on a
non-failed job) leaves the store unchanged. -/
def runOp (s : Store) : Op → Store
  | .enqueue q id spec af now => (enqueue_job s q id spec af now).1
  | .dequeue q => (dequeue_job s q).2
  | .cancel q id => cancel_job s q id
  | .emptyQ q => empty_queue s q
  | .start q id now => start_job s q id now
  | .finish id spec now => finish_job s id spec now
  | .fail q id exc now => fail_job s q id exc now
  | .requeue id =>
    match requeue_job s id with
    | .ok s' => s'
    | .error _ => s

/-- Execute a trace of operations. -/
def run (s : Store) : List Op → Store
  | [] => s
  | op :: rest => run (runOp s op) rest

/-- The five locations claim C1 tracks for a job id: its origin's queue
list, started registry, finished registry and deferred registry, and the
failure queue list.  The failure list is `rq:queue:failed` itself, so when
the origin is the queue named `failed` the first and last location are one
collection and are counted once. -/
def locCount (s : Store) (id : String) : Nat :=
  match originOf s id with
  | none => if id ∈ s.lists "failed" then 1 else 0
  | some o =>
    (if id ∈ s.lists o then 1 else 0) +
    (if id ∈ s.wip o then 1 else 0) +
    (if id ∈ s.fin o then 1 else 0) +
    (if id ∈ s.defr o then 1 else 0) +
    (if o ≠ "failed" ∧ id ∈ s.lists "failed" then 1 else 0)

/-- The lifecycle precondition of one operation: Enqueue requires an id
not already tracked for the target queue or in the failure list; Start,
Finish and Fail are invoked only on a job previously claimed by a
Dequeue (so in none of the tracked locations), with Finish handed the
job's stored origin; the remaining operations have no precondition. -/
def guardOp (s : Store) : Op → Prop
  | .enqueue q id _ _ _ =>
    id ∉ s.lists q ∧ id ∉ s.wip q ∧ id ∉ s.fin q ∧ id ∉ s.defr q ∧
      id ∉ s.lists "failed"
  | .dequeue _ => True
  | .cancel _ _ => True
  | .emptyQ _ => True
  | .start _ id _ => locCount s id = 0
  | .finish id spec _ =>
    (originOf s id).elim True fun o =>
      fieldStr spec "origin" = some o ∧ id ∉ s.lists o ∧ id ∉ s.defr o ∧
        id ∉ s.lists "failed"
  | .fail q id _ _ =>
    (originOf s id).elim True fun o =>
      q = o ∧ id ∉ s.lists o ∧ id ∉ s.fin o ∧ id ∉ s.defr o
  | .requeue _ => True

instance optElimDecidable (x : Option String) (P : String → Prop)
    [inst : ∀ o, Decidable (P o)] : Decidable (x.elim True P) :=
  match x with
  | none => .isTrue trivial
  | some o => inst o

instance guardOpDecidable (s : Store) : (op : Op) → Decidable (guardOp s op)
  | .enqueue _ _ _ _ _ => inferInstanceAs (Decidable (_ ∧ _ ∧ _ ∧ _ ∧ _))
  | .dequeue _ => inferInstanceAs (Decidable True)
  | .cancel _ _ => inferInstanceAs (Decidable True)
  | .emptyQ _ => inferInstanceAs (Decidable True)
  | .start _ _ _ => inferInstanceAs (Decidable (_ = _))
  | .finish _ _ _ => inferInstanceAs (Decidable (Option.elim _ True _))
  | .fail _ _ _ _ => inferInstanceAs (Decidable (Option.elim _ True _))
  | .requeue _ => inferInstanceAs (Decidable True)

/-- A trace is well-formed from a state when each operation's lifecycle
precondition holds in the state where it executes. -/
def WF (s : Store) : List Op → Prop
  | [] => True
  | op :: rest => guardOp s op ∧ WF (runOp s op) rest

instance wfDecidable : (ops : List Op) → (s : Store) → Decidable (WF s ops)
  | [], _ => .isTrue trivial
  | op :: rest, s =>
    @instDecidableAnd _ _ (guardOpDecidable s op) (wfDecidable rest (runOp s op))

/-!
The exclusive-location invariant, strengthened so that it is inductive:
besides the location count, a deferred job can be nowhere but its deferred
registry, and a failed job nowhere but the failure list.
-/

/-- Part A: every id occupies at most one tracked location. -/
def InvA (s : Store) : Prop :=
  ∀ id, locCount s id ≤ 1

/-- Part B: a job whose status is deferred is in none of the other
tracked locations. -/
def InvB (s : Store) : Prop :=
  ∀ id, job_status s id = some JobStatus.DEFERRED →
    ∀ o, originOf s id = some o →
      id ∉ s.lists o ∧ id ∉ s.wip o ∧ id ∉ s.fin o ∧ id ∉ s.lists "failed"

/-- Part C: a job whose status is failed is in none of the tracked
locations except possibly the failure list. -/
def InvC (s : Store) : Prop :=
  ∀ id, job_status s id = some JobStatus.FAILED →
    ∀ o, originOf s id = some o →
      (o ≠ "failed" → id ∉ s.lists o) ∧ id ∉ s.wip o ∧ id ∉ s.fin o ∧
        id ∉ s.defr o

/-- The inductive strengthening of the exclusive-location invariant. -/
def SInv (s : Store) : Prop :=
  InvA s ∧ InvB s ∧ InvC s

/-! Helper lemmas about the store combinators. -/

theorem updF_self (f : String → α) (k : String) (v : α) : updF f k v k = v := by
  simp [updF]

theorem updF_ne (f : String → α) {k k' : String} (v : α) (h : k' ≠ k) :
    updF f k v k' = f k' := by
  simp [updF, h]

theorem setField_self (f : Fields) (k : String) (v : Val) :
    setField f k v k = some v := by
  simp [setField]

theorem setField_ne (f : Fields) {k k' : String} (v : Val) (h : k' ≠ k) :
    setField f k v k' = f k' := by
  simp [setField, h]

theorem delField_ne (f : Fields) {k k' : String} (h : k' ≠ k) :
    delField f k k' = f k' := by
  simp [delField, h]

theorem mem_addElem {a x : String} {l : List String} :
    a ∈ addElem l x ↔ a ∈ l ∨ a = x := by
  unfold addElem
  split
  case isTrue h =>
    constructor
    · exact Or.inl
    · rintro (h' | rfl)
      · exact h'
      · exact h
  case isFalse h => simp [List.mem_append]

theorem mem_removeAll {a x : String} {l : List String} :
    a ∈ removeAll l x ↔ a ∈ l ∧ a ≠ x := by
  simp [removeAll]

theorem mem_addElem_ne {a x : String} {l : List String} (h : a ≠ x) :
    a ∈ addElem l x ↔ a ∈ l := by
  rw [mem_addElem]
  simp [h]

theorem mem_append_singleton {a x : String} {l : List String} :
    a ∈ l ++ [x] ↔ a ∈ l ∨ a = x := by
  simp [List.mem_append]

/-! Indicator arithmetic for the location count. -/

theorem ind_le {p q : Prop} [Decidable p] [Decidable q] (h : p → q) :
    (if p then (1 : Nat) else 0) ≤ if q then 1 else 0 := by
  by_cases hp : p
  · simp [hp, h hp]
  · simp [hp]

theorem ind_congr {p q : Prop} [Decidable p] [Decidable q] (h : p ↔ q) :
    (if p then (1 : Nat) else 0) = if q then 1 else 0 := by
  simp only [h]

theorem ind_le_one {p : Prop} [Decidable p] :
    (if p then (1 : Nat) else 0) ≤ 1 := by
  by_cases hp : p <;> simp [hp]

theorem ind_false {p : Prop} [Decidable p] (h : ¬p) :
    (if p then (1 : Nat) else 0) = 0 := by
  simp [h]

theorem ind_true {p : Prop} [Decidable p] (h : p) :
    (if p then (1 : Nat) else 0) = 1 := by
  simp [h]

/-! Reading the location count. -/

theorem locCount_of_none {s : Store} {id : String}
    (h : originOf s id = none) :
    locCount s id = if id ∈ s.lists "failed" then 1 else 0 := by
  simp [locCount, h]

theorem locCount_of_some {s : Store} {id o : String}
    (h : originOf s id = some o) :
    locCount s id =
      (if id ∈ s.lists o then 1 else 0) +
      (if id ∈ s.wip o then 1 else 0) +
      (if id ∈ s.fin o then 1 else 0) +
      (if id ∈ s.defr o then 1 else 0) +
      (if o ≠ "failed" ∧ id ∈ s.lists "failed" then 1 else 0) := by
  simp [locCount, h]

theorem locCount_le_one_of_none {s : Store} {id : String}
    (h : originOf s id = none) : locCount s id ≤ 1 := by
  rw [locCount_of_none h]
  exact ind_le_one

theorem locCount_zero_some {s : Store} {id o : String}
    (h0 : locCount s id = 0) (ho : originOf s id = some o) :
    id ∉ s.lists o ∧ id ∉ s.wip o ∧ id ∉ s.fin o ∧ id ∉ s.defr o ∧
      id ∉ s.lists "failed" := by
  rw [locCount_of_some ho] at h0
  refine ⟨fun hm => ?_, fun hm => ?_, fun hm => ?_, fun hm => ?_, fun hm => ?_⟩
  · simp [hm] at h0
  · simp [hm] at h0
  · simp [hm] at h0
  · simp [hm] at h0
  · by_cases hof : o = "failed"
    · subst hof
      simp [hm] at h0
    · simp [hm, hof] at h0

theorem locCount_zero_none {s : Store} {id : String}
    (h0 : locCount s id = 0) (ho : originOf s id = none) :
    id ∉ s.lists "failed" := by
  rw [locCount_of_none ho] at h0
  intro hm
  simp [hm] at h0

/-- The location count is monotone under pointwise shrinking of the
collections when the origin is unchanged. -/
theorem locCount_mono {s s' : Store} {id : String}
    (horig : originOf s' id = originOf s id)
    (hl : ∀ q, id ∈ s'.lists q → id ∈ s.lists q)
    (hw : ∀ q, id ∈ s'.wip q → id ∈ s.wip q)
    (hf : ∀ q, id ∈ s'.fin q → id ∈ s.fin q)
    (hd : ∀ q, id ∈ s'.defr q → id ∈ s.defr q) :
    locCount s' id ≤ locCount s id := by
  rcases h : originOf s id with _ | o
  · rw [locCount_of_none (horig.trans h), locCount_of_none h]
    exact ind_le (hl "failed")
  · rw [locCount_of_some (horig.trans h), locCount_of_some h]
    have h5 : (o ≠ "failed" ∧ id ∈ s'.lists "failed") →
        (o ≠ "failed" ∧ id ∈ s.lists "failed") :=
      fun hp => ⟨hp.1, hl "failed" hp.2⟩
    exact Nat.add_le_add (Nat.add_le_add (Nat.add_le_add (Nat.add_le_add
      (ind_le (hl o)) (ind_le (hw o))) (ind_le (hf o))) (ind_le (hd o)))
      (ind_le h5)

/-- The location count is unchanged when the origin is unchanged and all
memberships agree. -/
theorem locCount_congr {s s' : Store} {id : String}
    (horig : originOf s' id = originOf s id)
    (hl : ∀ q, id ∈ s'.lists q ↔ id ∈ s.lists q)
    (hw : ∀ q, id ∈ s'.wip q ↔ id ∈ s.wip q)
    (hf : ∀ q, id ∈ s'.fin q ↔ id ∈ s.fin q)
    (hd : ∀ q, id ∈ s'.defr q ↔ id ∈ s.defr q) :
    locCount s' id = locCount s id :=
  Nat.le_antisymm
    (locCount_mono horig (fun q => (hl q).mp) (fun q => (hw q).mp)
      (fun q => (hf q).mp) (fun q => (hd q).mp))
    (locCount_mono horig.symm (fun q => (hl q).mpr) (fun q => (hw q).mpr)
      (fun q => (hf q).mpr) (fun q => (hd q).mpr))

/-- An invariant-preservation helper covering every operation that only
shrinks collections and only deletes (or keeps) job hashes. -/
theorem sinv_shrink {s s' : Store}
    (hj : ∀ id, s'.jobs id = s.jobs id ∨ s'.jobs id = none)
    (hl : ∀ q id, id ∈ s'.lists q → id ∈ s.lists q)
    (hw : ∀ q id, id ∈ s'.wip q → id ∈ s.wip q)
    (hf : ∀ q id, id ∈ s'.fin q → id ∈ s.fin q)
    (hd : ∀ q id, id ∈ s'.defr q → id ∈ s.defr q)
    (hS : SInv s) : SInv s' := by
  obtain ⟨hA, hB, hC⟩ := hS
  refine ⟨fun id => ?_, fun id hst o horig => ?_, fun id hst o horig => ?_⟩
  · rcases hj id with hsame | hnone
    · have horig : originOf s' id = originOf s id := by
        simp [originOf, hsame]
      exact le_trans
        (locCount_mono horig (hl · id) (hw · id) (hf · id) (hd · id)) (hA id)
    · have : originOf s' id = none := by simp [originOf, hnone]
      exact locCount_le_one_of_none this
  · rcases hj id with hsame | hnone
    · have hst' : job_status s id = some JobStatus.DEFERRED := by
        rw [← hst]; simp [job_status, hsame]
      have horig' : originOf s id = some o := by
        rw [← horig]; simp [originOf, hsame]
      obtain ⟨b1, b2, b3, b4⟩ := hB id hst' o horig'
      exact ⟨fun hm => b1 (hl o id hm), fun hm => b2 (hw o id hm),
        fun hm => b3 (hf o id hm), fun hm => b4 (hl "failed" id hm)⟩
    · exact absurd hst (by simp [job_status, hnone])
  · rcases hj id with hsame | hnone
    · have hst' : job_status s id = some JobStatus.FAILED := by
        rw [← hst]; simp [job_status, hsame]
      have horig' : originOf s id = some o := by
        rw [← horig]; simp [originOf, hsame]
      obtain ⟨c1, c2, c3, c4⟩ := hC id hst' o horig'
      exact ⟨fun hne hm => c1 hne (hl o id hm), fun hm => c2 (hw o id hm),
        fun hm => c3 (hf o id hm), fun hm => c4 (hd o id hm)⟩
    · exact absurd hst (by simp [job_status, hnone])

/-! Preservation for the operations that only shrink collections. -/

theorem dequeueLoop_rest_subset (jobs : String → Option JobHash) :
    ∀ l : List String, ∀ a, a ∈ (dequeueLoop jobs l).2 → a ∈ l := by
  intro l
  induction l with
  | nil => simp [dequeueLoop]
  | cons id rest ih =>
    intro a
    unfold dequeueLoop
    cases jobs id with
    | some h =>
      intro ha
      exact List.mem_cons_of_mem _ ha
    | none =>
      intro ha
      exact List.mem_cons_of_mem _ (ih a ha)

theorem dequeue_snd (s : Store) (q : String) :
    (dequeue_job s q).2 =
      { s with lists := updF s.lists q (dequeueLoop s.jobs (s.lists q)).2 } := by
  unfold dequeue_job
  rcases h : dequeueLoop s.jobs (s.lists q) with ⟨r, rest⟩
  cases r with
  | some p =>
    rcases p with ⟨i, f⟩
    rfl
  | none => rfl

theorem sinv_dequeue (s : Store) (q : String) (hS : SInv s) :
    SInv (dequeue_job s q).2 := by
  rw [dequeue_snd]
  refine sinv_shrink ?_ ?_ ?_ ?_ ?_ hS
  case refine_1 => exact fun _ => Or.inl rfl
  case refine_3 => exact fun _ _ h => h
  case refine_4 => exact fun _ _ h => h
  case refine_5 => exact fun _ _ h => h
  intro q' a ha
  dsimp only at ha
  by_cases hq : q' = q
  · subst hq
    rw [updF_self] at ha
    exact dequeueLoop_rest_subset s.jobs _ a ha
  · rwa [updF_ne _ _ hq] at ha

theorem sinv_cancel (s : Store) (q id : String) (hS : SInv s) :
    SInv (cancel_job s q id) := by
  refine sinv_shrink ?_ ?_ ?_ ?_ ?_ hS
  case refine_1 => exact fun _ => Or.inl rfl
  case refine_3 => exact fun _ _ h => h
  case refine_4 => exact fun _ _ h => h
  case refine_5 => exact fun _ _ h => h
  intro q' a ha
  dsimp only [cancel_job] at ha
  by_cases hq : q' = q
  · subst hq
    rw [updF_self] at ha
    exact (mem_removeAll.mp ha).1
  · rwa [updF_ne _ _ hq] at ha

theorem sinv_empty_queue (s : Store) (q : String) (hS : SInv s) :
    SInv (empty_queue s q) := by
  refine sinv_shrink ?_ ?_ ?_ ?_ ?_ hS
  case refine_3 => exact fun _ _ h => h
  case refine_4 => exact fun _ _ h => h
  case refine_5 => exact fun _ _ h => h
  · intro j
    by_cases hm : j ∈ s.lists q
    · right
      simp [empty_queue, hm]
    · left
      simp [empty_queue, hm]
  · intro q' a ha
    dsimp only [empty_queue] at ha
    by_cases hq : q' = q
    · subst hq
      rw [updF_self] at ha
      exact absurd ha (List.not_mem_nil a)
    · rwa [updF_ne _ _ hq] at ha

/-! Observation lemmas and preservation for Start. -/

theorem start_jobs_ne (s : Store) (q id now : String) {j : String} (h : j ≠ id) :
    (start_job s q id now).jobs j = s.jobs j := by
  simp [start_job, updF, h]

theorem start_origin (s : Store) (q id now j : String) :
    originOf (start_job s q id now) j = originOf s j := by
  by_cases hj : j = id
  · subst hj
    unfold originOf start_job
    simp only [updF_self]
    cases hc : s.jobs j with
    | some h => simp [fieldStr, setField, hc]
    | none => simp [fieldStr, setField, emptyJob, hc]
  · rw [originOf, start_jobs_ne s q id now hj, originOf]

theorem start_status_self (s : Store) (q id now : String) :
    job_status (start_job s q id now) id = some JobStatus.STARTED := by
  unfold job_status start_job
  simp only [updF_self]
  simp [setField]

theorem start_status_ne (s : Store) (q id now : String) {j : String} (h : j ≠ id) :
    job_status (start_job s q id now) j = job_status s j := by
  rw [job_status, start_jobs_ne s q id now h, job_status]

theorem start_wip_mem (s : Store) (q id now : String) (q' j : String) :
    j ∈ (start_job s q id now).wip q' ↔
      j ∈ s.wip q' ∨ (q' = q ∧ j = id) := by
  unfold start_job
  dsimp only
  by_cases hq : q' = q
  · subst hq
    rw [updF_self, mem_addElem]
    simp
  · rw [updF_ne _ _ hq]
    simp [hq]

theorem sinv_start {s : Store} {q id now : String}
    (hg : locCount s id = 0) (hS : SInv s) : SInv (start_job s q id now) := by
  obtain ⟨hA, hB, hC⟩ := hS
  have hlists : ∀ q', (start_job s q id now).lists q' = s.lists q' := fun _ => rfl
  have hfin : ∀ q', (start_job s q id now).fin q' = s.fin q' := fun _ => rfl
  have hdefr : ∀ q', (start_job s q id now).defr q' = s.defr q' := fun _ => rfl
  refine ⟨fun j => ?_, fun j hst o horig => ?_, fun j hst o horig => ?_⟩
  · by_cases hj : j = id
    · subst hj
      rcases ho : originOf s j with _ | o
      · rw [locCount_of_none ((start_origin s q j now j).trans ho), hlists]
        have := locCount_zero_none hg ho
        simp [this]
      · obtain ⟨h1, h2, h3, h4, h5⟩ := locCount_zero_some hg ho
        rw [locCount_of_some ((start_origin s q j now j).trans ho)]
        rw [hlists, hlists, hfin, hdefr]
        have h5' : ¬(o ≠ "failed" ∧ j ∈ s.lists "failed") := fun hp => h5 hp.2
        rw [ind_false h1, ind_false h3, ind_false h4, ind_false h5']
        have : (if j ∈ (start_job s q j now).wip o then (1 : Nat) else 0) ≤ 1 :=
          ind_le_one
        omega
    · have hco : locCount (start_job s q id now) j = locCount s j := by
        refine locCount_congr (start_origin s q id now j)
          (fun q' => by rw [hlists]) ?_ (fun q' => by rw [hfin])
          (fun q' => by rw [hdefr])
        intro q'
        rw [start_wip_mem]
        simp [hj]
      rw [hco]
      exact hA j
  · by_cases hj : j = id
    · subst hj
      rw [start_status_self] at hst
      exact absurd hst (by simp [JobStatus.STARTED, JobStatus.DEFERRED])
    · rw [start_status_ne s q id now hj] at hst
      rw [start_origin s q id now j] at horig
      obtain ⟨b1, b2, b3, b4⟩ := hB j hst o horig
      refine ⟨by rwa [hlists], ?_, by rwa [hfin], by rwa [hlists]⟩
      rw [start_wip_mem]
      simp [hj, b2]
  · by_cases hj : j = id
    · subst hj
      rw [start_status_self] at hst
      exact absurd hst (by simp [JobStatus.STARTED, JobStatus.FAILED])
    · rw [start_status_ne s q id now hj] at hst
      rw [start_origin s q id now j] at horig
      obtain ⟨c1, c2, c3, c4⟩ := hC j hst o horig
      refine ⟨fun hne => by rw [hlists]; exact c1 hne, ?_, by rwa [hfin],
        by rwa [hdefr]⟩
      rw [start_wip_mem]
      simp [hj, c2]

/-! Observation lemmas and preservation for Fail. -/

theorem fail_jobs_ne (s : Store) (q id e now : String) {j : String} (h : j ≠ id) :
    (fail_job s q id e now).jobs j = s.jobs j := by
  simp [fail_job, hsetJ, updF, h]

theorem fail_origin (s : Store) (q id e now j : String) :
    originOf (fail_job s q id e now) j = originOf s j := by
  by_cases hj : j = id
  · subst hj
    cases hc : s.jobs j with
    | some h => simp [originOf, fail_job, hsetJ, updF, setField, fieldStr, hc]
    | none =>
      simp [originOf, fail_job, hsetJ, updF, setField, fieldStr, emptyJob, hc]
  · rw [originOf, fail_jobs_ne s q id e now hj, originOf]

theorem fail_status_self (s : Store) (q id e now : String) :
    job_status (fail_job s q id e now) id = some JobStatus.FAILED := by
  cases hc : s.jobs id with
  | some h => simp [job_status, fail_job, hsetJ, updF, setField, hc]
  | none => simp [job_status, fail_job, hsetJ, updF, setField, emptyJob, hc]

theorem fail_status_ne (s : Store) (q id e now : String) {j : String}
    (h : j ≠ id) :
    job_status (fail_job s q id e now) j = job_status s j := by
  rw [job_status, fail_jobs_ne s q id e now h, job_status]

theorem fail_lists_mem (s : Store) (q id e now q' j : String) :
    j ∈ (fail_job s q id e now).lists q' ↔
      j ∈ s.lists q' ∨ (q' = "failed" ∧ j = id) := by
  unfold fail_job
  dsimp only
  by_cases hq : q' = "failed"
  · subst hq
    rw [updF_self, mem_append_singleton]
    simp
  · rw [updF_ne _ _ hq]
    simp [hq]

theorem fail_wip_mem (s : Store) (q id e now q' j : String) :
    j ∈ (fail_job s q id e now).wip q' ↔
      j ∈ s.wip q' ∧ ¬(q' = q ∧ j = id) := by
  unfold fail_job
  dsimp only
  by_cases hq : q' = q
  · subst hq
    rw [updF_self, mem_removeAll]
    simp
  · rw [updF_ne _ _ hq]
    simp [hq]

theorem sinv_fail {s : Store} {q id e now : String}
    (hg : (originOf s id).elim True fun o =>
      q = o ∧ id ∉ s.lists o ∧ id ∉ s.fin o ∧ id ∉ s.defr o)
    (hS : SInv s) : SInv (fail_job s q id e now) := by
  obtain ⟨hA, hB, hC⟩ := hS
  have hfin : ∀ q', (fail_job s q id e now).fin q' = s.fin q' := fun _ => rfl
  have hdefr : ∀ q', (fail_job s q id e now).defr q' = s.defr q' := fun _ => rfl
  refine ⟨fun j => ?_, fun j hst o horig => ?_, fun j hst o horig => ?_⟩
  · by_cases hj : j = id
    · subst hj
      rcases ho : originOf s j with _ | o
      · exact locCount_le_one_of_none ((fail_origin s q j e now j).trans ho)
      · rw [ho] at hg
        obtain ⟨hqo, g1, g2, g3⟩ := hg
        subst hqo
        rw [locCount_of_some ((fail_origin s q j e now j).trans ho)]
        rw [hfin, hdefr, ind_false g2, ind_false g3]
        have hwip : (if j ∈ (fail_job s q j e now).wip q then (1 : Nat) else 0)
            = 0 := by
          refine ind_false ?_
          rw [fail_wip_mem]
          simp
        rw [hwip]
        by_cases hqf : q = "failed"
        · subst hqf
          have h5 : ¬("failed" ≠ "failed" ∧
              j ∈ (fail_job s "failed" j e now).lists "failed") :=
            fun hp => hp.1 rfl
          rw [ind_false h5]
          have : (if j ∈ (fail_job s "failed" j e now).lists "failed"
              then (1 : Nat) else 0) ≤ 1 := ind_le_one
          omega
        · have hl : (if j ∈ (fail_job s q j e now).lists q then (1 : Nat)
              else 0) = 0 := by
            refine ind_false ?_
            rw [fail_lists_mem]
            rintro (hm | ⟨hqf', _⟩)
            · exact g1 hm
            · exact hqf hqf'
          rw [hl]
          have : (if q ≠ "failed" ∧ j ∈ (fail_job s q j e now).lists "failed"
              then (1 : Nat) else 0) ≤ 1 := ind_le_one
          omega
    · have hco : locCount (fail_job s q id e now) j = locCount s j := by
        refine locCount_congr (fail_origin s q id e now j) ?_ ?_
          (fun q' => by rw [hfin]) (fun q' => by rw [hdefr])
        · intro q'
          rw [fail_lists_mem]
          simp [hj]
        · intro q'
          rw [fail_wip_mem]
          simp [hj]
      rw [hco]
      exact hA j
  · by_cases hj : j = id
    · subst hj
      rw [fail_status_self] at hst
      exact absurd hst (by simp [JobStatus.FAILED, JobStatus.DEFERRED])
    · rw [fail_status_ne s q id e now hj] at hst
      rw [fail_origin s q id e now j] at horig
      obtain ⟨b1, b2, b3, b4⟩ := hB j hst o horig
      refine ⟨?_, ?_, by rwa [hfin], ?_⟩
      · rw [fail_lists_mem]
        simp [hj, b1]
      · rw [fail_wip_mem]
        simp [hj, b2]
      · rw [fail_lists_mem]
        simp [hj, b4]
  · by_cases hj : j = id
    · subst hj
      have horig' : originOf s j = some o := (fail_origin s q j e now j).symm.trans horig
      rw [horig'] at hg
      obtain ⟨hqo, g1, g2, g3⟩ := hg
      subst hqo
      refine ⟨?_, ?_, ?_, ?_⟩
      · intro hne
        rw [fail_lists_mem]
        rintro (hm | ⟨hqf', _⟩)
        · exact g1 hm
        · exact hne hqf'
      · rw [fail_wip_mem]
        simp
      · rw [hfin]
        exact g2
      · rw [hdefr]
        exact g3
    · rw [fail_status_ne s q id e now hj] at hst
      rw [fail_origin s q id e now j] at horig
      obtain ⟨c1, c2, c3, c4⟩ := hC j hst o horig
      refine ⟨?_, ?_, by rwa [hfin], by rwa [hdefr]⟩
      · intro hne
        rw [fail_lists_mem]
        simp [hj, c1 hne]
      · rw [fail_wip_mem]
        simp [hj, c2]

/-! Observation lemmas and preservation for the two Enqueue branches. -/

theorem enqActivate_jobs_ne (s : Store) (q id : String) (spec : Fields)
    (af : Bool) (now : String) {j : String} (h : j ≠ id) :
    (enqActivate s q id spec af now).jobs j = s.jobs j := by
  simp [enqActivate, updF, h]

theorem enqActivate_origin_self (s : Store) (q id : String) (spec : Fields)
    (af : Bool) (now : String) :
    originOf (enqActivate s q id spec af now) id = some q := by
  simp [originOf, enqActivate, updF, setField, fieldStr]

theorem enqActivate_origin_ne (s : Store) (q id : String) (spec : Fields)
    (af : Bool) (now : String) {j : String} (h : j ≠ id) :
    originOf (enqActivate s q id spec af now) j = originOf s j := by
  rw [originOf, enqActivate_jobs_ne s q id spec af now h, originOf]

theorem enqActivate_status_self (s : Store) (q id : String) (spec : Fields)
    (af : Bool) (now : String) :
    job_status (enqActivate s q id spec af now) id = some JobStatus.QUEUED := by
  simp [job_status, enqActivate, updF, setField]

theorem enqActivate_status_ne (s : Store) (q id : String) (spec : Fields)
    (af : Bool) (now : String) {j : String} (h : j ≠ id) :
    job_status (enqActivate s q id spec af now) j = job_status s j := by
  rw [job_status, enqActivate_jobs_ne s q id spec af now h, job_status]

theorem enqActivate_lists_mem (s : Store) (q id : String) (spec : Fields)
    (af : Bool) (now : String) (q' j : String) :
    j ∈ (enqActivate s q id spec af now).lists q' ↔
      j ∈ s.lists q' ∨ (q' = q ∧ j = id) := by
  unfold enqActivate
  dsimp only
  by_cases hq : q' = q
  · subst hq
    rw [updF_self]
    cases af with
    | true => simp [or_comm]
    | false => simp [mem_append_singleton]
  · rw [updF_ne _ _ hq]
    simp [hq]

theorem enqDefer_jobs_ne (s : Store) (q id dep : String) (spec : Fields)
    {j : String} (h : j ≠ id) :
    (enqDefer s q id dep spec).jobs j = s.jobs j := by
  simp [enqDefer, updF, h]

theorem enqDefer_origin_self (s : Store) (q id dep : String) (spec : Fields) :
    originOf (enqDefer s q id dep spec) id = some q := by
  simp [originOf, enqDefer, updF, setField, fieldStr]

theorem enqDefer_origin_ne (s : Store) (q id dep : String) (spec : Fields)
    {j : String} (h : j ≠ id) :
    originOf (enqDefer s q id dep spec) j = originOf s j := by
  rw [originOf, enqDefer_jobs_ne s q id dep spec h, originOf]

theorem enqDefer_status_self (s : Store) (q id dep : String) (spec : Fields) :
    job_status (enqDefer s q id dep spec) id = some JobStatus.DEFERRED := by
  simp [job_status, enqDefer, updF, setField]

theorem enqDefer_status_ne (s : Store) (q id dep : String) (spec : Fields)
    {j : String} (h : j ≠ id) :
    job_status (enqDefer s q id dep spec) j = job_status s j := by
  rw [job_status, enqDefer_jobs_ne s q id dep spec h, job_status]

theorem enqDefer_defr_mem (s : Store) (q id dep : String) (spec : Fields)
    (q' j : String) :
    j ∈ (enqDefer s q id dep spec).defr q' ↔
      j ∈ s.defr q' ∨ (q' = q ∧ j = id) := by
  unfold enqDefer
  dsimp only
  by_cases hq : q' = q
  · subst hq
    rw [updF_self, mem_addElem]
    simp
  · rw [updF_ne _ _ hq]
    simp [hq]

theorem sinv_enqActivate {s : Store} {q id : String} {spec : Fields}
    {af : Bool} {now : String}
    (hg : id ∉ s.lists q ∧ id ∉ s.wip q ∧ id ∉ s.fin q ∧ id ∉ s.defr q ∧
      id ∉ s.lists "failed")
    (hS : SInv s) : SInv (enqActivate s q id spec af now) := by
  obtain ⟨g1, g2, g3, g4, g5⟩ := hg
  obtain ⟨hA, hB, hC⟩ := hS
  have hwip : ∀ q', (enqActivate s q id spec af now).wip q' = s.wip q' :=
    fun _ => rfl
  have hfin : ∀ q', (enqActivate s q id spec af now).fin q' = s.fin q' :=
    fun _ => rfl
  have hdefr : ∀ q', (enqActivate s q id spec af now).defr q' = s.defr q' :=
    fun _ => rfl
  refine ⟨fun j => ?_, fun j hst o horig => ?_, fun j hst o horig => ?_⟩
  · by_cases hj : j = id
    · subst hj
      rw [locCount_of_some (enqActivate_origin_self s q j spec af now)]
      rw [hwip, hfin, hdefr, ind_false g2, ind_false g3, ind_false g4]
      have hl : (if j ∈ (enqActivate s q j spec af now).lists q then (1 : Nat)
          else 0) = 1 := by
        refine ind_true ?_
        rw [enqActivate_lists_mem]
        exact Or.inr ⟨rfl, rfl⟩
      have h5 : (if q ≠ "failed" ∧
          j ∈ (enqActivate s q j spec af now).lists "failed" then (1 : Nat)
          else 0) = 0 := by
        refine ind_false ?_
        rintro ⟨hne, hm⟩
        rw [enqActivate_lists_mem] at hm
        rcases hm with hm | ⟨hqf, _⟩
        · exact g5 hm
        · exact hne hqf.symm
      rw [hl, h5]
    · have hco : locCount (enqActivate s q id spec af now) j = locCount s j := by
        refine locCount_congr (enqActivate_origin_ne s q id spec af now hj) ?_
          (fun q' => by rw [hwip]) (fun q' => by rw [hfin])
          (fun q' => by rw [hdefr])
        intro q'
        rw [enqActivate_lists_mem]
        simp [hj]
      rw [hco]
      exact hA j
  · by_cases hj : j = id
    · subst hj
      rw [enqActivate_status_self] at hst
      exact absurd hst (by simp [JobStatus.QUEUED, JobStatus.DEFERRED])
    · rw [enqActivate_status_ne s q id spec af now hj] at hst
      rw [enqActivate_origin_ne s q id spec af now hj] at horig
      obtain ⟨b1, b2, b3, b4⟩ := hB j hst o horig
      refine ⟨?_, by rwa [hwip], by rwa [hfin], ?_⟩
      · rw [enqActivate_lists_mem]
        simp [hj, b1]
      · rw [enqActivate_lists_mem]
        simp [hj, b4]
  · by_cases hj : j = id
    · subst hj
      rw [enqActivate_status_self] at hst
      exact absurd hst (by simp [JobStatus.QUEUED, JobStatus.FAILED])
    · rw [enqActivate_status_ne s q id spec af now hj] at hst
      rw [enqActivate_origin_ne s q id spec af now hj] at horig
      obtain ⟨c1, c2, c3, c4⟩ := hC j hst o horig
      refine ⟨?_, by rwa [hwip], by rwa [hfin], by rwa [hdefr]⟩
      intro hne
      rw [enqActivate_lists_mem]
      simp [hj, c1 hne]

theorem sinv_enqDefer {s : Store} {q id dep : String} {spec : Fields}
    (hg : id ∉ s.lists q ∧ id ∉ s.wip q ∧ id ∉ s.fin q ∧ id ∉ s.defr q ∧
      id ∉ s.lists "failed")
    (hS : SInv s) : SInv (enqDefer s q id dep spec) := by
  obtain ⟨g1, g2, g3, g4, g5⟩ := hg
  obtain ⟨hA, hB, hC⟩ := hS
  have hlists : ∀ q', (enqDefer s q id dep spec).lists q' = s.lists q' :=
    fun _ => rfl
  have hwip : ∀ q', (enqDefer s q id dep spec).wip q' = s.wip q' :=
    fun _ => rfl
  have hfin : ∀ q', (enqDefer s q id dep spec).fin q' = s.fin q' :=
    fun _ => rfl
  refine ⟨fun j => ?_, fun j hst o horig => ?_, fun j hst o horig => ?_⟩
  · by_cases hj : j = id
    · subst hj
      rw [locCount_of_some (enqDefer_origin_self s q j dep spec)]
      rw [hlists, hlists, hwip, hfin, ind_false g1, ind_false g2, ind_false g3]
      have h5 : ¬(q ≠ "failed" ∧ j ∈ s.lists "failed") := fun hp => g5 hp.2
      rw [ind_false h5]
      have : (if j ∈ (enqDefer s q j dep spec).defr q then (1 : Nat) else 0)
          ≤ 1 := ind_le_one
      omega
    · have hco : locCount (enqDefer s q id dep spec) j = locCount s j := by
        refine locCount_congr (enqDefer_origin_ne s q id dep spec hj)
          (fun q' => by rw [hlists]) (fun q' => by rw [hwip])
          (fun q' => by rw [hfin]) ?_
        intro q'
        rw [enqDefer_defr_mem]
        simp [hj]
      rw [hco]
      exact hA j
  · by_cases hj : j = id
    · subst hj
      have horig' : o = q := by
        have := (enqDefer_origin_self s q j dep spec).symm.trans horig
        exact (Option.some_injective _ this).symm
      subst horig'
      exact ⟨by rw [hlists]; exact g1, by rw [hwip]; exact g2,
        by rw [hfin]; exact g3, by rw [hlists]; exact g5⟩
    · rw [enqDefer_status_ne s q id dep spec hj] at hst
      rw [enqDefer_origin_ne s q id dep spec hj] at horig
      obtain ⟨b1, b2, b3, b4⟩ := hB j hst o horig
      exact ⟨by rw [hlists]; exact b1, by rw [hwip]; exact b2,
        by rw [hfin]; exact b3, by rw [hlists]; exact b4⟩
  · by_cases hj : j = id
    · subst hj
      rw [enqDefer_status_self] at hst
      exact absurd hst (by simp [JobStatus.DEFERRED, JobStatus.FAILED])
    · rw [enqDefer_status_ne s q id dep spec hj] at hst
      rw [enqDefer_origin_ne s q id dep spec hj] at horig
      obtain ⟨c1, c2, c3, c4⟩ := hC j hst o horig
      refine ⟨fun hne => by rw [hlists]; exact c1 hne, by rwa [hwip],
        by rwa [hfin], ?_⟩
      rw [enqDefer_defr_mem]
      simp [hj, c4]

theorem sinv_enqueue {s : Store} {q id : String} {spec : Fields} {af : Bool}
    {now : String}
    (hg : id ∉ s.lists q ∧ id ∉ s.wip q ∧ id ∉ s.fin q ∧ id ∉ s.defr q ∧
      id ∉ s.lists "failed")
    (hS : SInv s) : SInv (enqueue_job s q id spec af now).1 := by
  have hS0 : SInv ({ s with queues := addElem s.queues q }) := by
    refine sinv_shrink ?_ ?_ ?_ ?_ ?_ hS
    · exact fun _ => Or.inl rfl
    · exact fun _ _ h => h
    · exact fun _ _ h => h
    · exact fun _ _ h => h
    · exact fun _ _ h => h
  unfold enqueue_job
  cases hdep : depIdOf spec with
  | none =>
    exact sinv_enqActivate hg hS0
  | some dep =>
    dsimp only
    split
    · exact sinv_enqDefer hg hS0
    · exact sinv_enqActivate hg hS0

/-! Preservation for Requeue. -/

theorem requeue_eq_none {s : Store} {id : String} (hc : s.jobs id = none) :
    requeue_job s id = .ok (cancel_job s "failed" id) := by
  unfold requeue_job
  rw [hc]
  rfl

theorem requeue_eq_nonfailed {s : Store} {id : String} {h : JobHash}
    (hc : s.jobs id = some h) (hst : h.fields "status" ≠ some JobStatus.FAILED) :
    requeue_job s id = .error .invalidOperation := by
  unfold requeue_job
  rw [hc]
  dsimp only
  rw [if_pos hst]

theorem requeue_eq_ok {s : Store} {id : String} {h : JobHash}
    (hc : s.jobs id = some h) (hst : h.fields "status" = some JobStatus.FAILED) :
    requeue_job s id = .ok
      { s with
        jobs := updF s.jobs id (some { h with
          fields := setField (delField h.fields "exc_info") "status"
            JobStatus.QUEUED })
        lists := updF (updF s.lists "failed" (removeAll (s.lists "failed") id))
          ((fieldStr h.fields "origin").getD "")
          (updF s.lists "failed" (removeAll (s.lists "failed") id)
            ((fieldStr h.fields "origin").getD "") ++ [id]) } := by
  unfold requeue_job
  rw [hc]
  dsimp only
  rw [if_neg (by simp [hst])]

theorem sinv_requeue (s : Store) (id : String) (hS : SInv s) :
    SInv (runOp s (.requeue id)) := by
  show SInv (match requeue_job s id with | Except.ok s' => s' | Except.error _ => s)
  cases hc : s.jobs id with
  | none =>
    rw [requeue_eq_none hc]
    exact sinv_cancel s "failed" id hS
  | some h =>
    by_cases hst : h.fields "status" ≠ some JobStatus.FAILED
    · rw [requeue_eq_nonfailed hc hst]
      exact hS
    · rw [not_not] at hst
      rw [requeue_eq_ok hc hst]
      dsimp only
      obtain ⟨hA, hB, hC⟩ := hS
      have hstatus : job_status s id = some JobStatus.FAILED := by
        simp [job_status, hc, hst]
      set o := (fieldStr h.fields "origin").getD "" with ho_def
      set l1 := updF s.lists "failed" (removeAll (s.lists "failed") id) with hl1_def
      set s' : Store :=
        { s with
          jobs := updF s.jobs id (some { h with
            fields := setField (delField h.fields "exc_info") "status"
              JobStatus.QUEUED })
          lists := updF l1 o (l1 o ++ [id]) } with hsdef
      have horig : ∀ j, originOf s' j = originOf s j := by
        intro j
        by_cases hj : j = id
        · subst hj
          rw [originOf, hsdef]
          dsimp only
          rw [updF_self, originOf, hc]
          simp [fieldStr, setField, delField]
        · rw [originOf, hsdef]
          dsimp only
          rw [updF_ne _ _ hj, originOf]
      have hstat' : ∀ j, j ≠ id → job_status s' j = job_status s j := by
        intro j hj
        rw [job_status, hsdef]
        dsimp only
        rw [updF_ne _ _ hj, job_status]
      have hstat_self : job_status s' id = some JobStatus.QUEUED := by
        rw [job_status, hsdef]
        dsimp only
        rw [updF_self]
        simp [setField]
      have horigeq : originOf s id = fieldStr h.fields "origin" := by
        simp [originOf, hc]
      have hl1_mem : ∀ qq j, j ≠ id → (j ∈ l1 qq ↔ j ∈ s.lists qq) := by
        intro qq j hj
        rw [hl1_def]
        by_cases hqf : qq = "failed"
        · rw [hqf, updF_self, mem_removeAll]
          simp [hj]
        · rw [updF_ne _ _ hqf]
      have hlists_ne : ∀ q' j, j ≠ id → (j ∈ s'.lists q' ↔ j ∈ s.lists q') := by
        intro q' j hj
        rw [hsdef]
        dsimp only
        by_cases hqo : q' = o
        · rw [hqo, updF_self, mem_append_singleton, hl1_mem o j hj]
          simp [hj]
        · rw [updF_ne _ _ hqo]
          exact hl1_mem q' j hj
      have hwip : ∀ q', s'.wip q' = s.wip q' := fun _ => rfl
      have hfin : ∀ q', s'.fin q' = s.fin q' := fun _ => rfl
      have hdefr : ∀ q', s'.defr q' = s.defr q' := fun _ => rfl
      have hid_o : id ∈ s'.lists o := by
        rw [hsdef]
        dsimp only
        rw [updF_self, mem_append_singleton]
        exact Or.inr rfl
      have hid_failed : ∀ q', q' ≠ o → q' = "failed" → id ∉ s'.lists q' := by
        intro q' hqo hqf
        rw [hsdef]
        dsimp only
        rw [updF_ne _ _ hqo, hl1_def, hqf, updF_self, mem_removeAll]
        rintro ⟨_, hne⟩
        exact hne rfl
      refine ⟨fun j => ?_, fun j hstd o' horig' => ?_, fun j hstd o' horig' => ?_⟩
      · by_cases hj : j = id
        · subst hj
          rcases hor : originOf s j with _ | o₀
          · rw [locCount_of_none ((horig j).trans hor)]
            rw [horigeq] at hor
            have hne : "failed" ≠ o := by
              rw [ho_def, hor]
              simp
            have : j ∉ s'.lists "failed" := hid_failed "failed" hne rfl
            simp [this]
          · have hoo : o = o₀ := by
              rw [horigeq] at hor
              rw [ho_def, hor]
              rfl
            subst hoo
            obtain ⟨c1, c2, c3, c4⟩ := hC j hstatus o hor
            rw [locCount_of_some ((horig j).trans hor)]
            rw [hwip, hfin, hdefr, ind_false c2, ind_false c3, ind_false c4]
            rw [ind_true hid_o]
            have h5 : ¬(o ≠ "failed" ∧ j ∈ s'.lists "failed") := by
              rintro ⟨hne, hm⟩
              exact hid_failed "failed" (fun he => hne he.symm) rfl hm
            rw [ind_false h5]
        · have hco : locCount s' j = locCount s j :=
            locCount_congr (horig j) (fun q' => hlists_ne q' j hj)
              (fun q' => by rw [hwip]) (fun q' => by rw [hfin])
              (fun q' => by rw [hdefr])
          rw [hco]
          exact hA j
      · by_cases hj : j = id
        · subst hj
          rw [hstat_self] at hstd
          exact absurd hstd (by simp [JobStatus.QUEUED, JobStatus.DEFERRED])
        · rw [hstat' j hj] at hstd
          rw [horig j] at horig'
          obtain ⟨b1, b2, b3, b4⟩ := hB j hstd o' horig'
          exact ⟨fun hm => b1 ((hlists_ne o' j hj).mp hm), by rwa [hwip],
            by rwa [hfin], fun hm => b4 ((hlists_ne "failed" j hj).mp hm)⟩
      · by_cases hj : j = id
        · subst hj
          rw [hstat_self] at hstd
          exact absurd hstd (by simp [JobStatus.QUEUED, JobStatus.FAILED])
        · rw [hstat' j hj] at hstd
          rw [horig j] at horig'
          obtain ⟨c1, c2, c3, c4⟩ := hC j hstd o' horig'
          exact ⟨fun hne hm => c1 hne ((hlists_ne o' j hj).mp hm),
            by rwa [hwip], by rwa [hfin], by rwa [hdefr]⟩

/-! Preservation for the four stages of Finish. -/

/-- The invariant transfers along agreement of every observation it
reads. -/
theorem sinv_congr {s s' : Store}
    (horig : ∀ j, originOf s' j = originOf s j)
    (hstat : ∀ j, job_status s' j = job_status s j)
    (hl : ∀ q j, j ∈ s'.lists q ↔ j ∈ s.lists q)
    (hw : ∀ q j, j ∈ s'.wip q ↔ j ∈ s.wip q)
    (hf : ∀ q j, j ∈ s'.fin q ↔ j ∈ s.fin q)
    (hd : ∀ q j, j ∈ s'.defr q ↔ j ∈ s.defr q)
    (hS : SInv s) : SInv s' := by
  obtain ⟨hA, hB, hC⟩ := hS
  refine ⟨fun j => ?_, fun j hst o ho => ?_, fun j hst o ho => ?_⟩
  · rw [locCount_congr (horig j) (hl · j) (hw · j) (hf · j) (hd · j)]
    exact hA j
  · rw [hstat j] at hst
    rw [horig j] at ho
    obtain ⟨b1, b2, b3, b4⟩ := hB j hst o ho
    exact ⟨fun hm => b1 ((hl o j).mp hm), fun hm => b2 ((hw o j).mp hm),
      fun hm => b3 ((hf o j).mp hm), fun hm => b4 ((hl "failed" j).mp hm)⟩
  · rw [hstat j] at hst
    rw [horig j] at ho
    obtain ⟨c1, c2, c3, c4⟩ := hC j hst o ho
    exact ⟨fun hne hm => c1 hne ((hl o j).mp hm), fun hm => c2 ((hw o j).mp hm),
      fun hm => c3 ((hf o j).mp hm), fun hm => c4 ((hd o j).mp hm)⟩

theorem finishStamp_jobs_ne (s : Store) (id now : String) {j : String}
    (h : j ≠ id) : (finishStamp s id now).jobs j = s.jobs j := by
  simp [finishStamp, hsetJ, updF, h]

theorem finishStamp_origin (s : Store) (id now j : String) :
    originOf (finishStamp s id now) j = originOf s j := by
  by_cases hj : j = id
  · subst hj
    cases hc : s.jobs j with
    | some h => simp [originOf, finishStamp, hsetJ, updF, setField, fieldStr, hc]
    | none =>
      simp [originOf, finishStamp, hsetJ, updF, setField, fieldStr, emptyJob, hc]
  · rw [originOf, finishStamp_jobs_ne s id now hj, originOf]

theorem finishStamp_status_self (s : Store) (id now : String) :
    job_status (finishStamp s id now) id = some JobStatus.FINISHED := by
  cases hc : s.jobs id with
  | some h => simp [job_status, finishStamp, hsetJ, updF, setField, hc]
  | none => simp [job_status, finishStamp, hsetJ, updF, setField, emptyJob, hc]

theorem finishStamp_status_ne (s : Store) (id now : String) {j : String}
    (h : j ≠ id) : job_status (finishStamp s id now) j = job_status s j := by
  rw [job_status, finishStamp_jobs_ne s id now h, job_status]

theorem sinv_finishStamp (s : Store) (id now : String) (hS : SInv s) :
    SInv (finishStamp s id now) := by
  obtain ⟨hA, hB, hC⟩ := hS
  refine ⟨fun j => ?_, fun j hst o ho => ?_, fun j hst o ho => ?_⟩
  · rw [locCount_congr (finishStamp_origin s id now j) (fun _ => Iff.rfl)
      (fun _ => Iff.rfl) (fun _ => Iff.rfl) (fun _ => Iff.rfl)]
    exact hA j
  · by_cases hj : j = id
    · subst hj
      rw [finishStamp_status_self] at hst
      exact absurd hst (by simp [JobStatus.FINISHED, JobStatus.DEFERRED])
    · rw [finishStamp_status_ne s id now hj] at hst
      rw [finishStamp_origin s id now j] at ho
      exact hB j hst o ho
  · by_cases hj : j = id
    · subst hj
      rw [finishStamp_status_self] at hst
      exact absurd hst (by simp [JobStatus.FINISHED, JobStatus.FAILED])
    · rw [finishStamp_status_ne s id now hj] at hst
      rw [finishStamp_origin s id now j] at ho
      exact hC j hst o ho

theorem finishRegistries_wip_mem (s : Store) (id q q' j : String) :
    j ∈ (finishRegistries s id q).wip q' ↔
      j ∈ s.wip q' ∧ ¬(q' = q ∧ j = id) := by
  unfold finishRegistries
  dsimp only
  by_cases hq : q' = q
  · rw [hq, updF_self, mem_removeAll]
    simp [hq]
  · rw [updF_ne _ _ hq]
    simp [hq]

theorem finishRegistries_fin_mem (s : Store) (id q q' j : String) :
    j ∈ (finishRegistries s id q).fin q' ↔
      j ∈ s.fin q' ∨ (q' = q ∧ j = id) := by
  unfold finishRegistries
  dsimp only
  by_cases hq : q' = q
  · rw [hq, updF_self, mem_addElem]
    simp [hq]
  · rw [updF_ne _ _ hq]
    simp [hq]

theorem sinv_finishRegistries {s : Store} {id q : String}
    (hstFin : job_status s id = some JobStatus.FINISHED)
    (hg : (originOf s id).elim True fun o => q = o →
      id ∉ s.lists o ∧ id ∉ s.defr o ∧ id ∉ s.lists "failed")
    (hS : SInv s) : SInv (finishRegistries s id q) := by
  obtain ⟨hA, hB, hC⟩ := hS
  have hgo : ∀ o, originOf s id = some o → q = o →
      id ∉ s.lists o ∧ id ∉ s.defr o ∧ id ∉ s.lists "failed" := by
    intro o hoo hq
    rw [hoo] at hg
    exact hg hq
  have horig : ∀ j, originOf (finishRegistries s id q) j = originOf s j :=
    fun _ => rfl
  have hstat : ∀ j, job_status (finishRegistries s id q) j = job_status s j :=
    fun _ => rfl
  have hlists : ∀ q', (finishRegistries s id q).lists q' = s.lists q' :=
    fun _ => rfl
  have hdefr : ∀ q', (finishRegistries s id q).defr q' = s.defr q' :=
    fun _ => rfl
  refine ⟨fun j => ?_, fun j hst o ho => ?_, fun j hst o ho => ?_⟩
  · by_cases hj : j = id
    · subst hj
      rcases ho : originOf s j with _ | o
      · exact locCount_le_one_of_none ((horig j).trans ho)
      · by_cases hqo : q = o
        · obtain ⟨g1, g2, g3⟩ := hgo o ho hqo
          rw [locCount_of_some ((horig j).trans ho)]
          rw [hlists, hlists, hdefr, ind_false g1, ind_false g2]
          have h5 : ¬(o ≠ "failed" ∧ j ∈ s.lists "failed") := fun hp => g3 hp.2
          rw [ind_false h5]
          have hwip0 : (if j ∈ (finishRegistries s j q).wip o then (1 : Nat)
              else 0) = 0 := by
            refine ind_false ?_
            rw [finishRegistries_wip_mem]
            rintro ⟨_, hne⟩
            exact hne ⟨hqo.symm, rfl⟩
          rw [hwip0]
          have : (if j ∈ (finishRegistries s j q).fin o then (1 : Nat) else 0)
              ≤ 1 := ind_le_one
          omega
        · have hone : o ≠ q := fun he => hqo he.symm
          have hwipo : (finishRegistries s j q).wip o = s.wip o :=
            updF_ne _ _ hone
          have hfino : (finishRegistries s j q).fin o = s.fin o :=
            updF_ne _ _ hone
          have hco : locCount (finishRegistries s j q) j = locCount s j := by
            rw [locCount_of_some ((horig j).trans ho), locCount_of_some ho,
              hlists, hlists, hdefr, hwipo, hfino]
          rw [hco]
          exact hA j
    · have hco : locCount (finishRegistries s id q) j = locCount s j := by
        refine locCount_congr (horig j) (fun q' => by rw [hlists]) ?_ ?_
          (fun q' => by rw [hdefr])
        · intro q'
          rw [finishRegistries_wip_mem]
          simp [hj]
        · intro q'
          rw [finishRegistries_fin_mem]
          simp [hj]
      rw [hco]
      exact hA j
  · by_cases hj : j = id
    · subst hj
      rw [hstat j, hstFin] at hst
      exact absurd hst (by simp [JobStatus.FINISHED, JobStatus.DEFERRED])
    · rw [hstat j] at hst
      rw [horig j] at ho
      obtain ⟨b1, b2, b3, b4⟩ := hB j hst o ho
      refine ⟨by rwa [hlists], ?_, ?_, by rwa [hlists]⟩
      · rw [finishRegistries_wip_mem]
        rintro ⟨hm, _⟩
        exact b2 hm
      · rw [finishRegistries_fin_mem]
        simp [hj, b3]
  · by_cases hj : j = id
    · subst hj
      rw [hstat j, hstFin] at hst
      exact absurd hst (by simp [JobStatus.FINISHED, JobStatus.FAILED])
    · rw [hstat j] at hst
      rw [horig j] at ho
      obtain ⟨c1, c2, c3, c4⟩ := hC j hst o ho
      refine ⟨fun hne => by rw [hlists]; exact c1 hne, ?_, ?_, by rwa [hdefr]⟩
      · rw [finishRegistries_wip_mem]
        rintro ⟨hm, _⟩
        exact c2 hm
      · rw [finishRegistries_fin_mem]
        simp [hj, c3]

theorem applyResultTtl_ne (jobs : String → Option JobHash) (id : String)
    (rttl : Option Val) {j : String} (h : j ≠ id) :
    applyResultTtl jobs id rttl j = jobs j := by
  cases rttl with
  | none => simp [applyResultTtl, updF, h]
  | some v =>
    cases v with
    | str t => simp [applyResultTtl, updF, h]
    | int n =>
      by_cases hn : n = 0
      · simp [applyResultTtl, hn, updF, h]
      · simp [applyResultTtl, hn, updF, h]
    | noneMarker => simp [applyResultTtl, updF, h]

theorem applyResultTtl_self (jobs : String → Option JobHash) (id : String)
    (rttl : Option Val) :
    applyResultTtl jobs id rttl id = none ∨
      ∃ t : Option Nat, applyResultTtl jobs id rttl id =
        (jobs id).map fun h0 => { h0 with ttl := t } := by
  cases rttl with
  | none => exact Or.inr ⟨some 500, by simp [applyResultTtl, updF]⟩
  | some v =>
    cases v with
    | str t => exact Or.inr ⟨some 500, by simp [applyResultTtl, updF]⟩
    | int n =>
      by_cases hn : n = 0
      · exact Or.inl (by simp [applyResultTtl, hn, updF])
      · exact Or.inr ⟨some n.toNat, by simp [applyResultTtl, hn, updF]⟩
    | noneMarker => exact Or.inr ⟨none, by simp [applyResultTtl, updF]⟩

theorem sinv_finishTtl (s : Store) (id : String) (rttl : Option Val)
    (hS : SInv s) : SInv (finishTtl s id rttl) := by
  rcases applyResultTtl_self s.jobs id rttl with hdel | ⟨t, hmap⟩
  · refine sinv_shrink ?_ ?_ ?_ ?_ ?_ hS
    case refine_2 => exact fun _ _ h => h
    case refine_3 => exact fun _ _ h => h
    case refine_4 => exact fun _ _ h => h
    case refine_5 => exact fun _ _ h => h
    intro j
    by_cases hj : j = id
    · subst hj
      right
      show applyResultTtl s.jobs j rttl j = none
      exact hdel
    · left
      show applyResultTtl s.jobs id rttl j = s.jobs j
      exact applyResultTtl_ne s.jobs id rttl hj
  · refine sinv_congr ?_ ?_ ?_ ?_ ?_ ?_ hS
    case refine_3 => exact fun _ _ => Iff.rfl
    case refine_4 => exact fun _ _ => Iff.rfl
    case refine_5 => exact fun _ _ => Iff.rfl
    case refine_6 => exact fun _ _ => Iff.rfl
    · intro j
      by_cases hj : j = id
      · subst hj
        show originOf (finishTtl s j rttl) j = originOf s j
        rw [originOf, originOf]
        show (match applyResultTtl s.jobs j rttl j with
          | some h => fieldStr h.fields "origin"
          | none => none) = _
        rw [hmap]
        cases s.jobs j with
        | some h0 => rfl
        | none => rfl
      · show originOf (finishTtl s id rttl) j = originOf s j
        rw [originOf, originOf]
        show (match applyResultTtl s.jobs id rttl j with
          | some h => fieldStr h.fields "origin"
          | none => none) = _
        rw [applyResultTtl_ne s.jobs id rttl hj]
    · intro j
      by_cases hj : j = id
      · subst hj
        show job_status (finishTtl s j rttl) j = job_status s j
        rw [job_status, job_status]
        show (match applyResultTtl s.jobs j rttl j with
          | some h => h.fields "status"
          | none => none) = _
        rw [hmap]
        cases s.jobs j with
        | some h0 => rfl
        | none => rfl
      · show job_status (finishTtl s id rttl) j = job_status s j
        rw [job_status, job_status]
        show (match applyResultTtl s.jobs id rttl j with
          | some h => h.fields "status"
          | none => none) = _
        rw [applyResultTtl_ne s.jobs id rttl hj]

/-! Preservation for the dependent-release step. -/

theorem sinv_release (now : String) (s : Store) (d : String) (hS : SInv s) :
    SInv (releaseDependent now s d) := by
  rcases hc : s.jobs d with _ | h
  · unfold releaseDependent
    rw [hc]
    exact hS
  · by_cases hst : h.fields "status" = some JobStatus.DEFERRED
    · rcases horf : h.fields "origin" with _ | v
      · unfold releaseDependent
        rw [hc]
        dsimp only
        rw [if_pos hst, horf]
        exact hS
      · cases v with
        | int n =>
          unfold releaseDependent
          rw [hc]
          dsimp only
          rw [if_pos hst, horf]
          exact hS
        | noneMarker =>
          unfold releaseDependent
          rw [hc]
          dsimp only
          rw [if_pos hst, horf]
          exact hS
        | str qd =>
          have hsrel : releaseDependent now s d =
              { s with
                defr := updF s.defr qd (removeAll (s.defr qd) d)
                jobs := updF s.jobs d (some { h with
                  fields := setField (setField h.fields "status"
                    JobStatus.QUEUED) "enqueued_at" (.str now) })
                lists := updF s.lists qd (s.lists qd ++ [d]) } := by
            unfold releaseDependent
            rw [hc]
            dsimp only
            rw [if_pos hst, horf]
          obtain ⟨hA, hB, hC⟩ := hS
          have hstatus : job_status s d = some JobStatus.DEFERRED := by
            rw [job_status, hc]
            exact hst
          have horigd : originOf s d = some qd := by
            rw [originOf, hc]
            simp [fieldStr, horf]
          obtain ⟨b1, b2, b3, b4⟩ := hB d hstatus qd horigd
          rw [hsrel]
          set s' : Store :=
            { s with
              defr := updF s.defr qd (removeAll (s.defr qd) d)
              jobs := updF s.jobs d (some { h with
                fields := setField (setField h.fields "status"
                  JobStatus.QUEUED) "enqueued_at" (.str now) })
              lists := updF s.lists qd (s.lists qd ++ [d]) } with hsdef
          have horig : ∀ j, originOf s' j = originOf s j := by
            intro j
            by_cases hj : j = d
            · subst hj
              rw [originOf, originOf, hsdef]
              dsimp only
              rw [updF_self, hc]
              simp [fieldStr, setField]
            · rw [originOf, originOf, hsdef]
              dsimp only
              rw [updF_ne _ _ hj]
          have hstat_self : job_status s' d = some JobStatus.QUEUED := by
            rw [job_status, hsdef]
            dsimp only
            rw [updF_self]
            simp [setField]
          have hstat_ne : ∀ j, j ≠ d → job_status s' j = job_status s j := by
            intro j hj
            rw [job_status, job_status, hsdef]
            dsimp only
            rw [updF_ne _ _ hj]
          have hlists_mem : ∀ q' j, j ∈ s'.lists q' ↔
              j ∈ s.lists q' ∨ (q' = qd ∧ j = d) := by
            intro q' j
            rw [hsdef]
            dsimp only
            by_cases hq : q' = qd
            · rw [hq, updF_self, mem_append_singleton]
              simp [hq]
            · rw [updF_ne _ _ hq]
              simp [hq]
          have hdefr_mem : ∀ q' j, j ∈ s'.defr q' ↔
              j ∈ s.defr q' ∧ ¬(q' = qd ∧ j = d) := by
            intro q' j
            rw [hsdef]
            dsimp only
            by_cases hq : q' = qd
            · rw [hq, updF_self, mem_removeAll]
              simp [hq]
            · rw [updF_ne _ _ hq]
              simp [hq]
          have hwip : ∀ q', s'.wip q' = s.wip q' := fun _ => rfl
          have hfin : ∀ q', s'.fin q' = s.fin q' := fun _ => rfl
          refine ⟨fun j => ?_, fun j hstd o ho => ?_, fun j hstd o ho => ?_⟩
          · by_cases hj : j = d
            · subst hj
              rw [locCount_of_some ((horig j).trans horigd)]
              rw [hwip, hfin, ind_false b2, ind_false b3]
              have hl1 : (if j ∈ s'.lists qd then (1 : Nat) else 0) = 1 := by
                refine ind_true ?_
                rw [hlists_mem]
                exact Or.inr ⟨rfl, rfl⟩
              have hd0 : (if j ∈ s'.defr qd then (1 : Nat) else 0) = 0 := by
                refine ind_false ?_
                rw [hdefr_mem]
                rintro ⟨_, hne⟩
                exact hne ⟨rfl, rfl⟩
              have h50 : (if qd ≠ "failed" ∧ j ∈ s'.lists "failed"
                  then (1 : Nat) else 0) = 0 := by
                refine ind_false ?_
                rintro ⟨hne, hm⟩
                rw [hlists_mem] at hm
                rcases hm with hm | ⟨hqf, _⟩
                · exact b4 hm
                · exact hne hqf.symm
              rw [hl1, hd0, h50]
            · have hco : locCount s' j = locCount s j := by
                refine locCount_congr (horig j) ?_ (fun q' => by rw [hwip])
                  (fun q' => by rw [hfin]) ?_
                · intro q'
                  rw [hlists_mem]
                  simp [hj]
                · intro q'
                  rw [hdefr_mem]
                  simp [hj]
              rw [hco]
              exact hA j
          · by_cases hj : j = d
            · subst hj
              rw [hstat_self] at hstd
              exact absurd hstd (by simp [JobStatus.QUEUED, JobStatus.DEFERRED])
            · rw [hstat_ne j hj] at hstd
              rw [horig j] at ho
              obtain ⟨p1, p2, p3, p4⟩ := hB j hstd o ho
              refine ⟨?_, by rwa [hwip], by rwa [hfin], ?_⟩
              · rw [hlists_mem]
                simp [hj, p1]
              · rw [hlists_mem]
                simp [hj, p4]
          · by_cases hj : j = d
            · subst hj
              rw [hstat_self] at hstd
              exact absurd hstd (by simp [JobStatus.QUEUED, JobStatus.FAILED])
            · rw [hstat_ne j hj] at hstd
              rw [horig j] at ho
              obtain ⟨p1, p2, p3, p4⟩ := hC j hstd o ho
              refine ⟨?_, by rwa [hwip], by rwa [hfin], ?_⟩
              · intro hne
                rw [hlists_mem]
                simp [hj, p1 hne]
              · rw [hdefr_mem]
                rintro ⟨hm, _⟩
                exact p4 hm
    · unfold releaseDependent
      rw [hc]
      dsimp only
      rw [if_neg hst]
      exact hS

theorem sinv_fold_release (now : String) :
    ∀ (l : List String) (s : Store), SInv s →
      SInv (l.foldl (releaseDependent now) s)
  | [], _, hS => hS
  | d :: rest, s, hS => by
    rw [List.foldl_cons]
    exact sinv_fold_release now rest _ (sinv_release now s d hS)

theorem sinv_finishRelease (s : Store) (id now : String) (hS : SInv s) :
    SInv (finishRelease s id now) := by
  unfold finishRelease
  refine sinv_shrink ?_ ?_ ?_ ?_ ?_
    (sinv_fold_release now (s.deps id) s hS)
  · exact fun _ => Or.inl rfl
  · exact fun _ _ h => h
  · exact fun _ _ h => h
  · exact fun _ _ h => h
  · exact fun _ _ h => h

/-! Preservation for the whole Finish operation. -/

theorem sinv_finish {s : Store} {id : String} {spec : Fields} {now : String}
    (hg : (originOf s id).elim True fun o =>
      fieldStr spec "origin" = some o ∧ id ∉ s.lists o ∧ id ∉ s.defr o ∧
        id ∉ s.lists "failed")
    (hS : SInv s) : SInv (finish_job s id spec now) := by
  unfold finish_job
  have hS1 := sinv_finishStamp s id now hS
  have hg1 : (originOf (finishStamp s id now) id).elim True fun o =>
      (fieldStr spec "origin").getD "" = o →
        id ∉ (finishStamp s id now).lists o ∧
        id ∉ (finishStamp s id now).defr o ∧
        id ∉ (finishStamp s id now).lists "failed" := by
    rw [finishStamp_origin]
    rcases hoo : originOf s id with _ | o
    · exact trivial
    · rw [hoo] at hg
      obtain ⟨g0, g1, g2, g3⟩ := hg
      exact fun _ => ⟨g1, g2, g3⟩
  have hS2 := sinv_finishRegistries (finishStamp_status_self s id now) hg1 hS1
  have hS3 := sinv_finishTtl _ id (spec "result_ttl") hS2
  exact sinv_finishRelease _ id now hS3

/-! The invariant along well-formed traces. -/

theorem sinv_runOp (s : Store) (op : Op) (hg : guardOp s op) (hS : SInv s) :
    SInv (runOp s op) := by
  cases op with
  | enqueue q id spec af now => exact sinv_enqueue hg hS
  | dequeue q => exact sinv_dequeue s q hS
  | cancel q id => exact sinv_cancel s q id hS
  | emptyQ q => exact sinv_empty_queue s q hS
  | start q id now => exact sinv_start hg hS
  | finish id spec now => exact sinv_finish hg hS
  | fail q id exc now => exact sinv_fail hg hS
  | requeue id => exact sinv_requeue s id hS

theorem sinv_run : ∀ (ops : List Op) (s : Store), WF s ops → SInv s →
    SInv (run s ops)
  | [], _, _, hS => hS
  | op :: rest, s, hwf, hS => by
    have hwf2 : guardOp s op ∧ WF (runOp s op) rest := hwf
    exact sinv_run rest (runOp s op) hwf2.2 (sinv_runOp s op hwf2.1 hS)

theorem sinv_emptyStore : SInv emptyStore := by
  refine ⟨fun id => ?_, fun id hst => ?_, fun id hst => ?_⟩
  · simp [locCount, originOf, emptyStore]
  · simp [job_status, emptyStore] at hst
  · simp [job_status, emptyStore] at hst

/-! Claim C6: orphan tolerance of Dequeue. -/

theorem dequeueLoop_skip (jobs : String → Option JobHash) :
    ∀ (pre : List String) (id : String) (rest : List String) (h : JobHash),
      (∀ x ∈ pre, jobs x = none) → jobs id = some h →
      dequeueLoop jobs (pre ++ id :: rest) = (some (id, h.fields), rest) := by
  intro pre
  induction pre with
  | nil =>
    intro id rest h _ hhash
    rw [List.nil_append]
    unfold dequeueLoop
    rw [hhash]
  | cons x xs ih =>
    intro id rest h horph hhash
    rw [List.cons_append]
    unfold dequeueLoop
    rw [horph x (List.mem_cons_self x xs)]
    exact ih id rest h (fun y hy => horph y (List.mem_cons_of_mem x hy)) hhash

/-- Claim C6: an id popped from a queue list without a job hash raises no
error: Dequeue silently discards orphan ids within the same call and
returns the first popped id whose hash exists, with the hash's fields and
the id injected. -/
theorem c6_dequeue_orphan_tolerance (s : Store) (q : String)
    (pre : List String) (id : String) (rest : List String) (h : JobHash)
    (hlist : s.lists q = pre ++ id :: rest)
    (horph : ∀ x ∈ pre, s.jobs x = none)
    (hhash : s.jobs id = some h) :
    (dequeue_job s q).1 =
      some (setField (setField h.fields "id" (.str id)) "origin" (.str q)) ∧
    (setField (setField h.fields "id" (.str id)) "origin" (.str q)) "id" =
      some (.str id) := by
  constructor
  · unfold dequeue_job
    rw [hlist, dequeueLoop_skip s.jobs pre id rest h horph hhash]
  · rw [setField_ne _ _ (by simp), setField_self]

/-- Claim C6 witness: an orphan id ahead of a real job is skipped. -/
theorem c6_dequeue_orphan_tolerance_witness :
    ((dequeue_job
      { emptyStore with
        lists := updF emptyStore.lists "default" ["foo", "j"]
        jobs := updF emptyStore.jobs "j" (some emptyJob) } "default").1 =
      some (setField (setField emptyJob.fields "id" (.str "j")) "origin"
        (.str "default")) ∧
    (setField (setField emptyJob.fields "id" (.str "j")) "origin"
      (.str "default")) "id" = some (.str "j")) :=
  c6_dequeue_orphan_tolerance _ "default" ["foo"] "j" [] emptyJob rfl
    (by intro x hx; simp at hx; subst hx; rfl) rfl

/-- Claim C7: the double-birth guard — when the worker hash exists at the
moment Birth is called, Birth fails with ValueError and the workers set is
unchanged, so the worker key is not added. -/
theorem c7_double_birth_guard (s : Store) (w : String)
    (queueNames : List String) (ttl : Nat) (now : String)
    (hex : (s.whash w).isSome = true) :
    worker_birth s w queueNames ttl now = .error .valueError ∧
    (worker_birth_run s w queueNames ttl now).workers = s.workers := by
  have herr : worker_birth s w queueNames ttl now = .error .valueError := by
    unfold worker_birth
    rw [if_pos hex]
  refine ⟨herr, ?_⟩
  unfold worker_birth_run
  rw [herr]

/-- Claim C7 witness: a worker whose hash is present cannot be born
again. -/
theorem c7_double_birth_guard_witness :
    worker_birth
      { emptyStore with whash := updF emptyStore.whash "foo" (some emptyJob) }
      "foo" ["bar", "baz"] 420 "t" = .error .valueError ∧
    (worker_birth_run
      { emptyStore with whash := updF emptyStore.whash "foo" (some emptyJob) }
      "foo" ["bar", "baz"] 420 "t").workers =
      ({ emptyStore with
        whash := updF emptyStore.whash "foo" (some emptyJob) } : Store).workers :=
  c7_double_birth_guard _ "foo" ["bar", "baz"] 420 "t" rfl

/-- Claim C8: `resolve_connection` returns a non-None argument unchanged,
resolves a None argument to the topmost stacked connection, and raises
`NoRedisConnectionException` exactly when the argument is None and the
connection stack is empty. -/
theorem c8_resolve_connection (α : Type) :
    (∀ (c : α) (st : List α), resolve_connection (some c) st = .ok c) ∧
    (∀ (st : List α) (c : α), get_current_connection st = some c →
      resolve_connection none st = .ok c) ∧
    (∀ (conn : Option α) (st : List α),
      resolve_connection conn st = .error .noRedisConnection ↔
        conn = none ∧ st = []) := by
  refine ⟨fun c st => rfl, fun st c htop => ?_, fun conn st => ?_⟩
  · unfold resolve_connection
    rw [htop]
  · cases conn with
    | some c => simp [resolve_connection]
    | none =>
      cases st with
      | nil => simp [resolve_connection, get_current_connection]
      | cons c rest => simp [resolve_connection, get_current_connection]

/-- Claim C8 witness: resolution at concrete arguments. -/
theorem c8_resolve_connection_witness :
    resolve_connection (some 7) ([] : List Nat) = .ok 7 ∧
    resolve_connection none [5, 3] = .ok 5 ∧
    resolve_connection (none : Option Nat) [] = .error .noRedisConnection :=
  ⟨(c8_resolve_connection Nat).1 7 [],
    (c8_resolve_connection Nat).2.1 [5, 3] 5 rfl,
    ((c8_resolve_connection Nat).2.2 none []).mpr ⟨rfl, rfl⟩⟩

/-- Claim C9: entering the `Connection` context pushes exactly one
connection and exiting pops exactly one: when the body leaves the stack as
it found it, the stack after the context equals the stack before, and when
the popped connection differs from the one pushed at entry, the exit
raises AssertionError instead of restoring silently. -/
theorem c9_connection_stack_balance (α : Type) [DecidableEq α] :
    (∀ (conn : α) (st : List α),
      (connectionEnter conn st).length = st.length + 1) ∧
    (∀ (conn : α) (st : List α) (body : List α → List α),
      body (connectionEnter conn st) = connectionEnter conn st →
      connectionExit conn (body (connectionEnter conn st)) = .ok st) ∧
    (∀ (conn : α) (st : List α), (pop_connection st).1 ≠ some conn →
      connectionExit conn st = .error .assertionError) := by
  refine ⟨fun conn st => rfl, fun conn st body hbody => ?_, fun conn st hne => ?_⟩
  · rw [hbody]
    simp [connectionExit, connectionEnter, push_connection, pop_connection]
  · unfold connectionExit
    rw [if_neg hne]

/-- Claim C9 witness: a balanced context restores the stack; a foreign
pop raises. -/
theorem c9_connection_stack_balance_witness :
    (connectionEnter 4 [9]).length = [9].length + 1 ∧
    connectionExit 4 (id (connectionEnter 4 [9])) = .ok [9] ∧
    connectionExit 4 [8, 9] = .error .assertionError :=
  ⟨(c9_connection_stack_balance Nat).1 4 [9],
    (c9_connection_stack_balance Nat).2.1 4 [9] id rfl,
    (c9_connection_stack_balance Nat).2.2 4 [8, 9] (by decide)⟩

/-- Claim C10: `use_connection` raises AssertionError when more than one
connection is stacked; otherwise it clears the stack and leaves exactly
the given connection (or the newly created one) on it, which
`get_current_connection` then returns. -/
theorem c10_use_connection (α : Type) (redis : Option α) (fresh : α)
    (st : List α) :
    (1 < st.length → use_connection redis fresh st = .error .assertionError) ∧
    (st.length ≤ 1 →
      use_connection redis fresh st = .ok [redis.getD fresh] ∧
      get_current_connection [redis.getD fresh] = some (redis.getD fresh)) := by
  constructor
  · intro hlen
    unfold use_connection
    rw [if_neg (by omega)]
  · intro hlen
    refine ⟨?_, rfl⟩
    unfold use_connection
    rw [if_pos hlen]

/-- Claim C10 witness: mixing guard and the single-connection result. -/
theorem c10_use_connection_witness :
    use_connection (some 2) 9 [4, 5] = .error .assertionError ∧
    use_connection (some 2) 9 [4] = .ok [2] ∧
    get_current_connection [(some 2).getD 9] = some ((some 2).getD 9) :=
  ⟨(c10_use_connection Nat (some 2) 9 [4, 5]).1 (by decide),
    ((c10_use_connection Nat (some 2) 9 [4]).2 (by decide)).1,
    ((c10_use_connection Nat (some 2) 9 [4]).2 (by decide)).2⟩

/-! Claim C2: the defer-vs-activate decision of Enqueue. -/

theorem enqDefer_deps_self (s : Store) (q id dep : String) (spec : Fields) :
    id ∈ (enqDefer s q id dep spec).deps dep := by
  unfold enqDefer
  dsimp only
  rw [updF_self, mem_addElem]
  exact Or.inr rfl

theorem enqActivate_enqueued_at (s : Store) (q id : String) (spec : Fields)
    (af : Bool) (now : String) :
    jobField (enqActivate s q id spec af now) id "enqueued_at" =
      some (.str now) := by
  simp [jobField, enqActivate, updF, setField]

/-- Claim C2: Enqueue defers exactly when the spec names a dependency
whose stored status is not finished — then the job hash has status
deferred, the id is in the deferred registry and in the dependency's
dependents set, and not on the queue list; otherwise (no dependency, or a
finished one) the job has status queued with origin and enqueued_at set,
and the id is pushed onto the queue list. -/
theorem c2_enqueue_defer_decision (s : Store) (q id : String) (spec : Fields)
    (af : Bool) (now : String) (hfresh : id ∉ s.lists q) :
    (∀ dep, spec "dependency_id" = some (.str dep) →
      job_status s dep ≠ some JobStatus.FINISHED →
      job_status (enqueue_job s q id spec af now).1 id =
        some JobStatus.DEFERRED ∧
      id ∈ (enqueue_job s q id spec af now).1.defr q ∧
      id ∈ (enqueue_job s q id spec af now).1.deps dep ∧
      id ∉ (enqueue_job s q id spec af now).1.lists q) ∧
    (spec "dependency_id" = none →
      job_status (enqueue_job s q id spec af now).1 id =
        some JobStatus.QUEUED ∧
      originOf (enqueue_job s q id spec af now).1 id = some q ∧
      jobField (enqueue_job s q id spec af now).1 id "enqueued_at" =
        some (.str now) ∧
      id ∈ (enqueue_job s q id spec af now).1.lists q) ∧
    (∀ dep, spec "dependency_id" = some (.str dep) →
      job_status s dep = some JobStatus.FINISHED →
      job_status (enqueue_job s q id spec af now).1 id =
        some JobStatus.QUEUED ∧
      originOf (enqueue_job s q id spec af now).1 id = some q ∧
      jobField (enqueue_job s q id spec af now).1 id "enqueued_at" =
        some (.str now) ∧
      id ∈ (enqueue_job s q id spec af now).1.lists q) := by
  refine ⟨fun dep hdep hne => ?_, fun hdep => ?_, fun dep hdep hfin => ?_⟩
  · have hd : depIdOf spec = some dep := by
      rw [depIdOf, hdep]
    have hne0 : job_status { s with queues := addElem s.queues q } dep ≠
        some JobStatus.FINISHED := hne
    have he : (enqueue_job s q id spec af now).1 =
        enqDefer { s with queues := addElem s.queues q } q id dep spec := by
      unfold enqueue_job
      rw [hd]
      dsimp only
      rw [if_pos hne0]
    rw [he]
    refine ⟨enqDefer_status_self _ q id dep spec, ?_,
      enqDefer_deps_self _ q id dep spec, ?_⟩
    · rw [enqDefer_defr_mem]
      exact Or.inr ⟨rfl, rfl⟩
    · exact hfresh
  · have hd : depIdOf spec = none := by
      rw [depIdOf, hdep]
    have he : (enqueue_job s q id spec af now).1 =
        enqActivate { s with queues := addElem s.queues q } q id spec af now := by
      unfold enqueue_job
      rw [hd]
    rw [he]
    refine ⟨enqActivate_status_self _ q id spec af now,
      enqActivate_origin_self _ q id spec af now,
      enqActivate_enqueued_at _ q id spec af now, ?_⟩
    rw [enqActivate_lists_mem]
    exact Or.inr ⟨rfl, rfl⟩
  · have hd : depIdOf spec = some dep := by
      rw [depIdOf, hdep]
    have hfin0 : ¬(job_status { s with queues := addElem s.queues q } dep ≠
        some JobStatus.FINISHED) := fun hcon => hcon hfin
    have he : (enqueue_job s q id spec af now).1 =
        enqActivate { s with queues := addElem s.queues q } q id spec af now := by
      unfold enqueue_job
      rw [hd]
      dsimp only
      rw [if_neg hfin0]
    rw [he]
    refine ⟨enqActivate_status_self _ q id spec af now,
      enqActivate_origin_self _ q id spec af now,
      enqActivate_enqueued_at _ q id spec af now, ?_⟩
    rw [enqActivate_lists_mem]
    exact Or.inr ⟨rfl, rfl⟩

/-- Claim C2 witness: a dependency with no stored status defers the job;
the unresolved dependency keeps it off the queue list. -/
theorem c2_enqueue_defer_decision_witness :
    job_status (enqueue_job emptyStore "default" "j"
        (fun k => if k = "dependency_id" then some (.str "p") else none)
        false "t").1 "j" = some JobStatus.DEFERRED ∧
    "j" ∈ (enqueue_job emptyStore "default" "j"
        (fun k => if k = "dependency_id" then some (.str "p") else none)
        false "t").1.defr "default" ∧
    "j" ∈ (enqueue_job emptyStore "default" "j"
        (fun k => if k = "dependency_id" then some (.str "p") else none)
        false "t").1.deps "p" ∧
    "j" ∉ (enqueue_job emptyStore "default" "j"
        (fun k => if k = "dependency_id" then some (.str "p") else none)
        false "t").1.lists "default" :=
  (c2_enqueue_defer_decision emptyStore "default" "j"
    (fun k => if k = "dependency_id" then some (.str "p") else none)
    false "t" (by decide)).1 "p" rfl (by decide)

/-! Claim C4: the result_ttl policy of Finish. -/

theorem release_jobs_of_not_deferred (now : String) (s : Store) (d id : String)
    (h : job_status s id ≠ some JobStatus.DEFERRED) :
    (releaseDependent now s d).jobs id = s.jobs id := by
  rcases hc : s.jobs d with _ | h0
  · unfold releaseDependent
    rw [hc]
  · by_cases hst : h0.fields "status" = some JobStatus.DEFERRED
    · have hd : id ≠ d := by
        intro he
        subst he
        refine h ?_
        rw [job_status, hc]
        exact hst
      rcases horf : h0.fields "origin" with _ | v
      · unfold releaseDependent
        rw [hc]
        dsimp only
        rw [if_pos hst, horf]
      · cases v with
        | str qd =>
          unfold releaseDependent
          rw [hc]
          dsimp only
          rw [if_pos hst, horf]
          dsimp only
          exact updF_ne _ _ hd
        | int n =>
          unfold releaseDependent
          rw [hc]
          dsimp only
          rw [if_pos hst, horf]
        | noneMarker =>
          unfold releaseDependent
          rw [hc]
          dsimp only
          rw [if_pos hst, horf]
    · unfold releaseDependent
      rw [hc]
      dsimp only
      rw [if_neg hst]

theorem fold_release_jobs (now id : String) :
    ∀ (l : List String) (s : Store),
      job_status s id ≠ some JobStatus.DEFERRED →
      (l.foldl (releaseDependent now) s).jobs id = s.jobs id
  | [], _, _ => rfl
  | d :: rest, s, h => by
    rw [List.foldl_cons]
    have h1 : (releaseDependent now s d).jobs id = s.jobs id :=
      release_jobs_of_not_deferred now s d id h
    have h2 : job_status (releaseDependent now s d) id = job_status s id := by
      unfold job_status
      rw [h1]
    rw [fold_release_jobs now id rest _ (by rw [h2]; exact h), h1]

theorem finishRelease_jobs (s : Store) (id now : String)
    (h : job_status s id ≠ some JobStatus.DEFERRED) :
    (finishRelease s id now).jobs id = s.jobs id := by
  unfold finishRelease
  exact fold_release_jobs now id (s.deps id) s h

/-- Claim C4: after Finish, the job hash key has TTL 500 when the spec has
no result_ttl, is deleted when result_ttl is 0, has TTL N when result_ttl
is a positive integer N, and is persisted (TTL -1) when result_ttl is the
None marker. -/
theorem c4_finish_result_ttl (s : Store) (id : String) (spec : Fields)
    (now : String) :
    (spec "result_ttl" = none →
      jobTTL (finish_job s id spec now) id = some (some 500)) ∧
    (spec "result_ttl" = some (.int 0) →
      (finish_job s id spec now).jobs id = none) ∧
    (∀ n : Int, 0 < n → spec "result_ttl" = some (.int n) →
      jobTTL (finish_job s id spec now) id = some (some n.toNat)) ∧
    (spec "result_ttl" = some .noneMarker →
      jobTTL (finish_job s id spec now) id = some none) := by
  obtain ⟨h1, hh1⟩ : ∃ h1, (finishStamp s id now).jobs id = some h1 :=
    ⟨_, by unfold finishStamp hsetJ; dsimp only; exact updF_self _ _ _⟩
  have hst1 : h1.fields "status" = some JobStatus.FINISHED := by
    have hs := finishStamp_status_self s id now
    simp only [job_status, hh1] at hs
    exact hs
  have hh2 : (finishRegistries (finishStamp s id now) id
      ((fieldStr spec "origin").getD "")).jobs id = some h1 := hh1
  refine ⟨fun hr => ?_, fun hr => ?_, fun n hn hr => ?_, fun hr => ?_⟩
  · unfold finish_job
    rw [hr]
    have e3 : (finishTtl (finishRegistries (finishStamp s id now) id
        ((fieldStr spec "origin").getD "")) id none).jobs id =
        some { h1 with ttl := some 500 } := by
      show applyResultTtl _ id none id = _
      unfold applyResultTtl
      dsimp only
      rw [updF_self, hh2]
      rfl
    have hstat3 : job_status (finishTtl (finishRegistries (finishStamp s id now)
        id ((fieldStr spec "origin").getD "")) id none) id ≠
        some JobStatus.DEFERRED := by
      simp [job_status, e3, hst1, JobStatus.FINISHED, JobStatus.DEFERRED]
    rw [jobTTL, finishRelease_jobs _ id now hstat3, e3]
    rfl
  · unfold finish_job
    rw [hr]
    have e3 : (finishTtl (finishRegistries (finishStamp s id now) id
        ((fieldStr spec "origin").getD "")) id (some (.int 0))).jobs id =
        none := by
      show applyResultTtl _ id (some (.int 0)) id = _
      unfold applyResultTtl
      dsimp only
      rw [if_pos rfl, updF_self]
    have hstat3 : job_status (finishTtl (finishRegistries (finishStamp s id now)
        id ((fieldStr spec "origin").getD "")) id (some (.int 0))) id ≠
        some JobStatus.DEFERRED := by
      simp [job_status, e3]
    rw [finishRelease_jobs _ id now hstat3, e3]
  · unfold finish_job
    rw [hr]
    have hn0 : ¬(n = 0) := by omega
    have e3 : (finishTtl (finishRegistries (finishStamp s id now) id
        ((fieldStr spec "origin").getD "")) id (some (.int n))).jobs id =
        some { h1 with ttl := some n.toNat } := by
      show applyResultTtl _ id (some (.int n)) id = _
      unfold applyResultTtl
      dsimp only
      rw [if_neg hn0, updF_self, hh2]
      rfl
    have hstat3 : job_status (finishTtl (finishRegistries (finishStamp s id now)
        id ((fieldStr spec "origin").getD "")) id (some (.int n))) id ≠
        some JobStatus.DEFERRED := by
      simp [job_status, e3, hst1, JobStatus.FINISHED, JobStatus.DEFERRED]
    rw [jobTTL, finishRelease_jobs _ id now hstat3, e3]
    rfl
  · unfold finish_job
    rw [hr]
    have e3 : (finishTtl (finishRegistries (finishStamp s id now) id
        ((fieldStr spec "origin").getD "")) id (some .noneMarker)).jobs id =
        some { h1 with ttl := none } := by
      show applyResultTtl _ id (some .noneMarker) id = _
      unfold applyResultTtl
      dsimp only
      rw [updF_self, hh2]
      rfl
    have hstat3 : job_status (finishTtl (finishRegistries (finishStamp s id now)
        id ((fieldStr spec "origin").getD "")) id (some .noneMarker)) id ≠
        some JobStatus.DEFERRED := by
      simp [job_status, e3, hst1, JobStatus.FINISHED, JobStatus.DEFERRED]
    rw [jobTTL, finishRelease_jobs _ id now hstat3, e3]
    rfl

/-- Claim C4 witness: a finished job with result_ttl 5000 keeps its hash
for 5000 seconds. -/
theorem c4_finish_result_ttl_witness :
    jobTTL (finish_job emptyStore "j"
      (fun k => if k = "result_ttl" then some (.int 5000) else none) "t") "j" =
      some (some (Int.toNat 5000)) :=
  (c4_finish_result_ttl emptyStore "j"
    (fun k => if k = "result_ttl" then some (.int 5000) else none) "t").2.2.1
    5000 (by omega) (by decide)

/-! Claim C3: the enqueue/dequeue round trip. -/

theorem enq_empty_eq (q id : String) (spec : Fields) (now : String)
    (hdep : spec "dependency_id" = none) :
    (enqueue_job emptyStore q id spec false now).1 =
      enqActivate { emptyStore with queues := addElem emptyStore.queues q }
        q id spec false now := by
  have hd : depIdOf spec = none := by
    rw [depIdOf, hdep]
  unfold enqueue_job
  rw [hd]

theorem enqActivate_empty_jobs (s0 : Store) (q id : String) (spec : Fields)
    (now : String) (h0 : s0.jobs id = none) :
    (enqActivate s0 q id spec false now).jobs id =
      some { fields := setField (setField (setField
        (mergeInto emptyJob.fields spec) "status" JobStatus.QUEUED)
        "enqueued_at" (.str now)) "origin" (.str q), ttl := none } := by
  show updF _ id _ id = _
  rw [updF_self, h0]
  rfl

theorem enqActivate_empty_lists (s0 : Store) (q id : String) (spec : Fields)
    (now : String) (h0 : s0.lists q = []) :
    (enqActivate s0 q id spec false now).lists q = [id] := by
  show updF _ q _ q = _
  rw [updF_self, h0]
  rfl

/-- Claim C3: Enqueue of a job without a dependency immediately followed
by Dequeue of the same queue returns a mapping with the enqueued id and a
byte-identical data field, with origin and status queued injected, and
leaves the queue list empty. -/
theorem c3_enqueue_dequeue_roundtrip (q id : String) (spec : Fields)
    (now : String) (hdep : spec "dependency_id" = none) :
    ∃ f, (dequeue_job (enqueue_job emptyStore q id spec false now).1 q).1 =
        some f ∧
      f "id" = some (.str id) ∧
      f "data" = spec "data" ∧
      f "origin" = some (.str q) ∧
      f "status" = some JobStatus.QUEUED ∧
      ((dequeue_job (enqueue_job emptyStore q id spec false now).1 q).2.lists
        q).length = 0 := by
  rw [enq_empty_eq q id spec now hdep]
  set s0 : Store := { emptyStore with queues := addElem emptyStore.queues q }
    with hs0
  have hjobs := enqActivate_empty_jobs s0 q id spec now rfl
  have hlist := enqActivate_empty_lists s0 q id spec now rfl
  have hdq : dequeueLoop (enqActivate s0 q id spec false now).jobs
      ((enqActivate s0 q id spec false now).lists q) =
      (some (id, setField (setField (setField (mergeInto emptyJob.fields spec)
        "status" JobStatus.QUEUED) "enqueued_at" (.str now)) "origin"
        (.str q)), []) := by
    rw [hlist]
    unfold dequeueLoop
    rw [hjobs]
  unfold dequeue_job
  rw [hdq]
  dsimp only
  refine ⟨_, rfl, ?_, ?_, ?_, ?_, ?_⟩
  · simp [setField]
  · simp only [setField]
    simp only [show ("data" : String) = "origin" ↔ False by simp,
      show ("data" : String) = "id" ↔ False by simp,
      show ("data" : String) = "enqueued_at" ↔ False by simp,
      show ("data" : String) = "status" ↔ False by simp, if_false, iff_false]
    cases hsd : spec "data" with
    | some v => simp [mergeInto, hsd]
    | none => simp [mergeInto, hsd, emptyJob]
  · simp [setField]
  · simp [setField]
  · rw [updF_self]
    rfl

/-- Claim C3 witness: a concrete round trip on the default queue. -/
theorem c3_enqueue_dequeue_roundtrip_witness :
    ∃ f, (dequeue_job (enqueue_job emptyStore "default" "j"
        (fun k => if k = "data" then some (.str "payload") else none)
        false "t").1 "default").1 = some f ∧
      f "id" = some (.str "j") ∧
      f "data" = (fun k : String =>
        if k = "data" then some (Val.str "payload") else none) "data" ∧
      f "origin" = some (.str "default") ∧
      f "status" = some JobStatus.QUEUED ∧
      ((dequeue_job (enqueue_job emptyStore "default" "j"
        (fun k => if k = "data" then some (.str "payload") else none)
        false "t").1 "default").2.lists "default").length = 0 :=
  c3_enqueue_dequeue_roundtrip "default" "j"
    (fun k => if k = "data" then some (.str "payload") else none) "t" rfl

/-! Claim C5: Fail followed by Requeue restores the queued state. -/

theorem hsetJ_self_of_some {jobs : String → Option JobHash} {id : String}
    {hh : JobHash} (h0 : jobs id = some hh) (field : String) (v : Val) :
    hsetJ jobs id field v id =
      some { hh with fields := setField hh.fields field v } := by
  unfold hsetJ
  rw [updF_self, h0]
  rfl

/-- Claim C5: a job enqueued on a queue, claimed by a worker and failed
there returns, after Requeue, to status queued with no exc_info, present
exactly once on its origin queue list and no longer on the failure list. -/
theorem c5_fail_requeue_roundtrip (q id exc : String) (spec : Fields)
    (now1 now2 : String) (hdep : spec "dependency_id" = none)
    (hq : q ≠ "failed") :
    ∃ s4, requeue_job (fail_job (dequeue_job
        (enqueue_job emptyStore q id spec false now1).1 q).2 q id exc now2)
        id = .ok s4 ∧
      job_status s4 id = some JobStatus.QUEUED ∧
      jobField s4 id "exc_info" = none ∧
      (s4.lists q).count id = 1 ∧
      id ∉ s4.lists "failed" := by
  have hqf : "failed" ≠ q := fun he => hq he.symm
  rw [enq_empty_eq q id spec now1 hdep]
  set s0 : Store := { emptyStore with queues := addElem emptyStore.queues q }
    with hs0
  set fE : Fields := setField (setField (setField
    (mergeInto emptyJob.fields spec) "status" JobStatus.QUEUED)
    "enqueued_at" (.str now1)) "origin" (.str q) with hfE
  have hjobs : (enqActivate s0 q id spec false now1).jobs id =
      some { fields := fE, ttl := none } :=
    enqActivate_empty_jobs s0 q id spec now1 rfl
  have hlist : (enqActivate s0 q id spec false now1).lists q = [id] :=
    enqActivate_empty_lists s0 q id spec now1 rfl
  set sE := enqActivate s0 q id spec false now1 with hsE
  have hdq : dequeueLoop sE.jobs (sE.lists q) = (some (id, fE), []) := by
    rw [hlist]
    unfold dequeueLoop
    rw [hjobs]
  have hs2 : (dequeue_job sE q).2 = { sE with lists := updF sE.lists q [] } := by
    rw [dequeue_snd, hdq]
  rw [hs2]
  set s2 : Store := { sE with lists := updF sE.lists q [] } with hs2d
  have hs2jobs : s2.jobs id = some { fields := fE, ttl := none } := hjobs
  -- the failed job hash
  have e1 := hsetJ_self_of_some hs2jobs "status" JobStatus.FAILED
  have e2 := hsetJ_self_of_some e1 "ended_at" (Val.str now2)
  have e3 := hsetJ_self_of_some e2 "exc_info" (Val.str exc)
  set f3 : Fields := setField (setField (setField fE "status"
    JobStatus.FAILED) "ended_at" (.str now2)) "exc_info" (.str exc) with hf3
  have h3eq : (fail_job s2 q id exc now2).jobs id =
      some { fields := f3, ttl := none } := e3
  have h3status : f3 "status" = some JobStatus.FAILED := by
    rw [hf3]
    simp [setField]
  have h3origin : f3 "origin" = some (.str q) := by
    rw [hf3, hfE]
    simp [setField]
  -- the failure-queue list after Fail
  have hs2failed : s2.lists "failed" = [] := by
    show updF sE.lists q [] "failed" = []
    rw [updF_ne _ _ hqf]
    show updF emptyStore.lists q _ "failed" = []
    rw [updF_ne _ _ hqf]
    rfl
  have h3failed : (fail_job s2 q id exc now2).lists "failed" = [id] := by
    show updF s2.lists "failed" (s2.lists "failed" ++ [id]) "failed" = [id]
    rw [updF_self, hs2failed]
    rfl
  have h3listq : (fail_job s2 q id exc now2).lists q = [] := by
    show updF s2.lists "failed" (s2.lists "failed" ++ [id]) q = []
    rw [updF_ne _ _ hq]
    show updF sE.lists q [] q = []
    rw [updF_self]
  -- Requeue
  have hrq := requeue_eq_ok h3eq (by exact h3status)
  rw [hrq]
  have ho : (fieldStr ({ fields := f3, ttl := none } : JobHash).fields
      "origin").getD "" = q := by
    show (fieldStr f3 "origin").getD "" = q
    rw [fieldStr, h3origin]
    rfl
  rw [ho]
  refine ⟨_, rfl, ?_, ?_, ?_, ?_⟩
  · simp [job_status, updF, setField]
  · simp [jobField, updF, setField, delField]
  · show (updF (updF (fail_job s2 q id exc now2).lists "failed"
      (removeAll ((fail_job s2 q id exc now2).lists "failed") id)) q
      (updF (fail_job s2 q id exc now2).lists "failed"
        (removeAll ((fail_job s2 q id exc now2).lists "failed") id) q ++ [id])
      q).count id = 1
    rw [updF_self, updF_ne _ _ hq, h3listq]
    simp
  · show id ∉ updF (updF (fail_job s2 q id exc now2).lists "failed"
      (removeAll ((fail_job s2 q id exc now2).lists "failed") id)) q
      (updF (fail_job s2 q id exc now2).lists "failed"
        (removeAll ((fail_job s2 q id exc now2).lists "failed") id) q ++ [id])
      "failed"
    rw [updF_ne _ _ hqf, updF_self, h3failed]
    simp [removeAll]

/-- Claim C5 witness: the concrete fail/requeue cycle on the default
queue. -/
theorem c5_fail_requeue_roundtrip_witness :
    ∃ s4, requeue_job (fail_job (dequeue_job
        (enqueue_job emptyStore "default" "j"
          (fun k => if k = "data" then some (.str "payload") else none)
          false "t1").1 "default").2 "default" "j" "boom" "t2") "j" =
        .ok s4 ∧
      job_status s4 "j" = some JobStatus.QUEUED ∧
      jobField s4 "j" "exc_info" = none ∧
      (s4.lists "default").count "j" = 1 ∧
      "j" ∉ s4.lists "failed" :=
  c5_fail_requeue_roundtrip "default" "j" "boom"
    (fun k => if k = "data" then some (.str "payload") else none)
    "t1" "t2" rfl (by decide)

/-! Claim C1: the exclusive-location invariant. -/

/-- Claim C1 (counterexample): the invariant fails for an arbitrary
operation sequence — Enqueue followed directly by Start (without a
Dequeue) leaves the id both on its origin queue list and in the started
registry of its origin, two of the five tracked locations. -/
theorem c1_claim_counterexample :
    ¬ (locCount (run emptyStore
      [Op.enqueue "default" "j" (fun _ => none) false "t1",
       Op.start "default" "j" "t2"]) "j" ≤ 1) := by
  decide

/-- Claim C1 (amended): for every finite sequence of protocol operations
executed from the empty store in which each operation respects its
lifecycle precondition (a fresh id at Enqueue; Start, Finish and Fail
invoked only on a job previously claimed by a Dequeue, with Finish handed
the job's stored origin), every job id is present, at every quiescent
point, in at most one of: its origin queue list, the started registry of
its origin, the finished registry, the deferred registry, and the failure
queue list. -/
theorem c1_exclusive_location (ops : List Op) (hwf : WF emptyStore ops)
    (id : String) : locCount (run emptyStore ops) id ≤ 1 :=
  (sinv_run ops emptyStore hwf sinv_emptyStore).1 id

/-- Claim C1 witness: a full enqueue/dequeue/start/finish lifecycle,
including a deferred dependent released by Finish, keeps every id in at
most one location. -/
theorem c1_exclusive_location_witness :
    WF emptyStore
      [Op.enqueue "default" "p" (fun _ => none) false "t1",
       Op.enqueue "default" "c"
         (fun k => if k = "dependency_id" then some (.str "p") else none)
         false "t2",
       Op.dequeue "default",
       Op.start "default" "p" "t3",
       Op.finish "p" (fun k => if k = "origin" then some (.str "default")
         else none) "t4"] ∧
    locCount (run emptyStore
      [Op.enqueue "default" "p" (fun _ => none) false "t1",
       Op.enqueue "default" "c"
         (fun k => if k = "dependency_id" then some (.str "p") else none)
         false "t2",
       Op.dequeue "default",
       Op.start "default" "p" "t3",
       Op.finish "p" (fun k => if k = "origin" then some (.str "default")
         else none) "t4"]) "c" ≤ 1 :=
  ⟨by decide, c1_exclusive_location
    [Op.enqueue "default" "p" (fun _ => none) false "t1",
     Op.enqueue "default" "c"
       (fun k => if k = "dependency_id" then some (.str "p") else none)
       false "t2",
     Op.dequeue "default",
     Op.start "default" "p" "t3",
     Op.finish "p" (fun k => if k = "origin" then some (.str "default")
       else none) "t4"] (by decide) "c"⟩

end Aiorq
